import Mathlib

/-!
# Noxim FTTM manager: a shallow embedding of `NoximManagerCore`

The manager of `src/NoximManagerCore.cpp` keeps two ordered maps, the
assignment table `task_map` (task id to core id) and the registry
`core_status` (core id to status), plus a copy of the task list.  Both maps are
`std::map`s with `int` keys; they are embedded as association lists kept in
ascending key order, so that iterating the list is iterating the map.

Conventions of the embedding:

* C++ `int` is embedded as `Int` (signed overflow is undefined behaviour and is
  not modelled); `/` and `%` are the truncating `Int.tdiv` and `Int.tmod`.
* The `double` energies are sums of products of integers; they are embedded as
  `Int`, the sentinel `1e9` as `1000000000`.
* `m[k]` used as a value inserts a value-initialised entry when `k` is absent;
  this is `mapIndex`.  `m[k] = v` is `mapSet`.
* Console output is not modelled.  The log file `noxim_state.json` is a
  `String`; `dumpState` is modelled for a file that can be opened, and the text
  the stream library writes for a `double` is a parameter.
-/

namespace Noxim

/-! ## Data model -/

/-- Modelled from the spec: the enumeration `CoreStatus` is declared in
`DataStructs.h`, which is not among the sources.  The four enumerators are those
the code names. -/
inductive CoreStatus where
  | CORE_HEALTHY
  | CORE_BUSY
  | CORE_SPARE
  | CORE_FAULTY
  deriving DecidableEq, Repr

/-- Modelled from the spec: `struct Task` is declared in `DataStructs.h`, which
is not among the sources.  `communication_partners` is the ordered map from
partner task id to traffic volume, listed in iteration order. -/
structure Task where
  task_id : Int
  computation_load : Int
  communication_partners : List (Int × Int)
  deriving DecidableEq, Repr

/-- The globals the manager reads: `GlobalParams::mesh_dim_x`,
`GlobalParams::mesh_dim_y`.  `status_zero` is the value-initialised
`CoreStatus()`, the status `core_status[k]` inserts for an absent key `k`; it is
fixed by the absent declaration of the enumeration and is kept as a parameter. -/
structure GlobalParams where
  mesh_dim_x : Int
  mesh_dim_y : Int
  status_zero : CoreStatus
  deriving DecidableEq, Repr

/-- The private state of `class NoximManagerCore`. -/
structure NoximManagerCore where
  task_map : List (Int × Int)
  core_status : List (Int × CoreStatus)
  all_tasks : List Task
  deriving DecidableEq, Repr

/-! ## Ordered maps -/

/-- The member `std::map::find`, as an option. -/
def mapFind {β : Type} : List (Int × β) → Int → Option β
  | [], _ => none
  | (k', v) :: m, k => if k' = k then some v else mapFind m k

/-- The assignment `m[k] = v`: overwrite the entry of `k`, or insert it at its
place in the key order. -/
def mapSet {β : Type} : List (Int × β) → Int → β → List (Int × β)
  | [], k, v => [(k, v)]
  | (k', v') :: m, k, v =>
    if k = k' then (k, v) :: m
    else if k < k' then (k, v) :: (k', v') :: m
    else (k', v') :: mapSet m k v

/-- The expression `m[k]` read as a value: the stored value, or a
value-initialised entry `d` inserted on the spot. -/
def mapIndex {β : Type} (d : β) (m : List (Int × β)) (k : Int) : β × List (Int × β) :=
  match mapFind m k with
  | some v => (v, m)
  | none => (d, mapSet m k d)

/-- Keys in strictly ascending order: the representation invariant of `std::map`. -/
def keysAsc {β : Type} (m : List (Int × β)) : Prop :=
  (m.map Prod.fst).Pairwise (· < ·)

instance {β : Type} (m : List (Int × β)) : Decidable (keysAsc m) := by
  unfold keysAsc; infer_instance

/-! ## The manager -/

/-- The product `mesh_dim_x * mesh_dim_y`. -/
def totalCores (P : GlobalParams) : Int := P.mesh_dim_x * P.mesh_dim_y

/-- The values of `i` in `for (int i = 0; i < total_cores; i++)`. -/
def coreIds (P : GlobalParams) : List Int :=
  (List.range (totalCores P).toNat).map Int.ofNat

/-- The constructor `NoximManagerCore::NoximManagerCore`: every core id below
`total_cores` is entered as `CORE_HEALTHY`. -/
def NoximManagerCore.create (P : GlobalParams) : NoximManagerCore :=
  { task_map := []
    core_status := (coreIds P).foldl (fun cs i => mapSet cs i CoreStatus.CORE_HEALTHY) []
    all_tasks := [] }

/-- The inner loop of `initialMapping`,
`while (core_status[core_idx] != CORE_HEALTHY && core_idx < width * height) core_idx++`.
The left operand is evaluated first, so `core_status[core_idx]` is read (and
inserted when absent) before the bound is tested.  The first argument is the
measure `(width * height - core_idx).toNat`: when it is `0` the bound test
fails, so the loop ends after that one read. -/
def skipUnavailable (P : GlobalParams) :
    Nat → List (Int × CoreStatus) → Int → Int × List (Int × CoreStatus)
  | 0, cs, core_idx => (core_idx, (mapIndex P.status_zero cs core_idx).2)
  | n + 1, cs, core_idx =>
    let r := mapIndex P.status_zero cs core_idx
    if r.1 ≠ CoreStatus.CORE_HEALTHY ∧ core_idx < totalCores P then
      skipUnavailable P n r.2 (core_idx + 1)
    else (core_idx, r.2)

/-- The `for (const auto& task : tasks)` loop of `initialMapping`, with the
cursor `core_idx` and the two maps as loop state. -/
def mapTasks (P : GlobalParams) :
    List Task → Int → List (Int × Int) → List (Int × CoreStatus) →
      List (Int × Int) × List (Int × CoreStatus)
  | [], _, tm, cs => (tm, cs)
  | task :: rest, core_idx, tm, cs =>
    if core_idx ≥ totalCores P then (tm, cs)
    else
      let r := skipUnavailable P (totalCores P - core_idx).toNat cs core_idx
      if r.1 < totalCores P then
        mapTasks P rest (r.1 + 1) (mapSet tm task.task_id r.1)
          (mapSet r.2 r.1 CoreStatus.CORE_BUSY)
      else mapTasks P rest r.1 tm r.2

/-- The method `NoximManagerCore::initialMapping`. -/
def initialMapping (P : GlobalParams) (s : NoximManagerCore) (tasks : List Task) :
    NoximManagerCore :=
  let r := mapTasks P tasks 0 s.task_map s.core_status
  { task_map := r.1, core_status := r.2, all_tasks := tasks }

/-- The method `NoximManagerCore::getManhattanDistance`. -/
def getManhattanDistance (P : GlobalParams) (core_id1 core_id2 : Int) : Int :=
  let width := P.mesh_dim_x
  let x1 := core_id1.tmod width
  let y1 := core_id1.tdiv width
  let x2 := core_id2.tmod width
  let y2 := core_id2.tdiv width
  ((x1 - x2).natAbs : Int) + ((y1 - y2).natAbs : Int)

/-- The loop of `calculateTaskEnergyOnCore` over the partner map, with the
running `energy` and the registry (which `core_status[partner_core_id]` may
extend) as loop state. -/
def energyLoop (P : GlobalParams) (tm : List (Int × Int)) (core_id : Int) :
    List (Int × Int) → Int → List (Int × CoreStatus) → Int × List (Int × CoreStatus)
  | [], energy, cs => (energy, cs)
  | (partner_id, volume) :: rest, energy, cs =>
    match mapFind tm partner_id with
    | some partner_core_id =>
      let r := mapIndex P.status_zero cs partner_core_id
      if r.1 ≠ CoreStatus.CORE_FAULTY then
        energyLoop P tm core_id rest
          (energy + volume * getManhattanDistance P core_id partner_core_id) r.2
      else energyLoop P tm core_id rest energy r.2
    | none => energyLoop P tm core_id rest energy cs

/-- The method `NoximManagerCore::calculateTaskEnergyOnCore`. -/
def calculateTaskEnergyOnCore (P : GlobalParams) (tm : List (Int × Int))
    (cs : List (Int × CoreStatus)) (task : Task) (core_id : Int) :
    Int × List (Int × CoreStatus) :=
  energyLoop P tm core_id task.communication_partners 0 cs

/-- The first loop of `findBestSpareCore`: the first task of `all_tasks` with
the given id. -/
def lookupTask : List Task → Int → Option Task
  | [], _ => none
  | t :: rest, task_id => if t.task_id = task_id then some t else lookupTask rest task_id

/-- The initial value of `min_energy`, written `1e9` in the source. -/
def minEnergyInit : Int := 1000000000

/-- The second loop of `findBestSpareCore`, over the core ids, with
`best_core`, `min_energy` and the registry as loop state. -/
def spareLoop (P : GlobalParams) (tm : List (Int × Int)) (current_task : Task) :
    List Int → Int → Int → List (Int × CoreStatus) → Int × List (Int × CoreStatus)
  | [], best_core, _, cs => (best_core, cs)
  | i :: rest, best_core, min_energy, cs =>
    let r := mapIndex P.status_zero cs i
    if r.1 = CoreStatus.CORE_HEALTHY then
      let e := calculateTaskEnergyOnCore P tm r.2 current_task i
      if e.1 < min_energy then spareLoop P tm current_task rest i e.1 e.2
      else spareLoop P tm current_task rest best_core min_energy e.2
    else spareLoop P tm current_task rest best_core min_energy r.2

/-- The method `NoximManagerCore::findBestSpareCore`: the chosen core (or `-1`)
and the registry after the reads. -/
def findBestSpareCore (P : GlobalParams) (s : NoximManagerCore) (task_id : Int) :
    Int × List (Int × CoreStatus) :=
  match lookupTask s.all_tasks task_id with
  | none => (-1, s.core_status)
  | some current_task =>
    spareLoop P s.task_map current_task (coreIds P) (-1) minEnergyInit s.core_status

/-- The scan of `handleFault` over `task_map`: the id of the first task mapped
to the faulty core, `-1` when there is none. -/
def taskOnCore : List (Int × Int) → Int → Int
  | [], _ => -1
  | (task_id, core_id) :: rest, faulty_core_id =>
    if core_id = faulty_core_id then task_id else taskOnCore rest faulty_core_id

/-- The method `NoximManagerCore::handleFault`. -/
def handleFault (P : GlobalParams) (s : NoximManagerCore)
    (faulty_core_x faulty_core_y : Int) : NoximManagerCore :=
  let faulty_core_id := faulty_core_y * P.mesh_dim_x + faulty_core_x
  let task_to_move := taskOnCore s.task_map faulty_core_id
  if task_to_move ≠ -1 then
    let r := findBestSpareCore P s task_to_move
    if r.1 ≠ -1 then
      { s with
        task_map := mapSet s.task_map task_to_move r.1
        core_status := mapSet r.2 r.1 CoreStatus.CORE_BUSY }
    else { s with core_status := r.2 }
  else s

/-- The assignment `core_status[core_id] = CORE_FAULTY` of `injectFault`. -/
def markFaulty (P : GlobalParams) (s : NoximManagerCore) (x y : Int) : NoximManagerCore :=
  { s with
    core_status := mapSet s.core_status (y * P.mesh_dim_x + x) CoreStatus.CORE_FAULTY }

/-- The method `NoximManagerCore::injectFault`. -/
def injectFault (P : GlobalParams) (s : NoximManagerCore) (x y : Int) : NoximManagerCore :=
  let core_id := y * P.mesh_dim_x + x
  if (mapFind s.core_status core_id).isSome then handleFault P (markFaulty P s x y) x y
  else s

/-- The method `NoximManagerCore::getTaskLocation`. -/
def getTaskLocation (s : NoximManagerCore) (task_id : Int) : Int :=
  match mapFind s.task_map task_id with
  | some core_id => core_id
  | none => -1

/-- The method `NoximManagerCore::getCoreStatus`. -/
def getCoreStatus (P : GlobalParams) (s : NoximManagerCore) (x y : Int) : CoreStatus :=
  let id := y * P.mesh_dim_x + x
  match mapFind s.core_status id with
  | some st => st
  | none => CoreStatus.CORE_FAULTY

/-- The cost of hosting `task` on `core_id` in state `s`: the value
`calculateTaskEnergyOnCore(task, core_id)` returns there. -/
def cost (P : GlobalParams) (s : NoximManagerCore) (task : Task) (core_id : Int) : Int :=
  (calculateTaskEnergyOnCore P s.task_map s.core_status task core_id).1

/-! ## Runs of the manager -/

/-- A call of one of the two mutating methods. -/
inductive Call where
  | initialMapping (tasks : List Task)
  | injectFault (x y : Int)
  deriving DecidableEq, Repr

/-- The effect of one call. -/
def step (P : GlobalParams) (s : NoximManagerCore) : Call → NoximManagerCore
  | Call.initialMapping tasks => initialMapping P s tasks
  | Call.injectFault x y => injectFault P s x y

/-- The effect of a sequence of calls, in order. -/
def run (P : GlobalParams) : NoximManagerCore → List Call → NoximManagerCore
  | s, [] => s
  | s, c :: cs => run P (step P s c) cs

/-- The states a manager can be in: freshly constructed, or after a call. -/
inductive Reachable (P : GlobalParams) : NoximManagerCore → Prop where
  | create : Reachable P (NoximManagerCore.create P)
  | initialMapping {s : NoximManagerCore} (tasks : List Task) :
      Reachable P s → Reachable P (initialMapping P s tasks)
  | injectFault {s : NoximManagerCore} (x y : Int) :
      Reachable P s → Reachable P (injectFault P s x y)

/-! ## Concrete inputs -/

/-- The task list built by `sc_main`: ten tasks `Task(i, 1000)`, task `i > 0`
declaring task `i - 1` as partner with volume `100`. -/
def mainTasks : List Task :=
  (List.range 10).map fun i =>
    { task_id := (i : Int)
      computation_load := 1000
      communication_partners := if i > 0 then [((i : Int) - 1, 100)] else [] }

/-- A mesh of the given dimensions, with `CORE_HEALTHY` as the value-initialised
status. -/
def mesh (w h : Int) : GlobalParams :=
  { mesh_dim_x := w, mesh_dim_y := h, status_zero := CoreStatus.CORE_HEALTHY }

/-- The manager of a 4 x 4 mesh after `initialMapping(mainTasks)`, as in
`sc_main`. -/
def mainState : NoximManagerCore :=
  initialMapping (mesh 4 4) (NoximManagerCore.create (mesh 4 4)) mainTasks

/-- Two tasks, the first sending a volume of `1000000000` to the second. -/
def heavyTasks : List Task :=
  [ { task_id := 0, computation_load := 1000, communication_partners := [(1, 1000000000)] },
    { task_id := 1, computation_load := 1000, communication_partners := [] } ]

/-! ## The reference cost of the spec -/

/-- The status the spec gives a core id (section 4.1, `getStatus`): the stored
status, and `FAULTY` for an id without an entry. -/
def specStatus (cs : List (Int × CoreStatus)) (core_id : Int) : CoreStatus :=
  match mapFind cs core_id with
  | some st => st
  | none => CoreStatus.CORE_FAULTY

/-- The cost as the spec words it (section 4.3): the sum, over every
`(partner_id, volume)` of the task, of `volume * manhattanDistance(candidate,
table[partner_id])`, only for partners that have an assignment and whose
assigned core is not `FAULTY`; the other partners contribute zero. -/
def costSpec (P : GlobalParams) (s : NoximManagerCore) (task : Task)
    (candidate_core : Int) : Int :=
  (task.communication_partners.map fun pv =>
    match mapFind s.task_map pv.1 with
    | some partner_core =>
      if specStatus s.core_status partner_core ≠ CoreStatus.CORE_FAULTY then
        pv.2 * getManhattanDistance P candidate_core partner_core
      else 0
    | none => 0).sum

/-- The mesh cores stored as `CORE_HEALTHY`, in ascending id order. -/
def availableCores (P : GlobalParams) (cs : List (Int × CoreStatus)) : List Int :=
  (coreIds P).filter fun i => decide (mapFind cs i = some CoreStatus.CORE_HEALTHY)

/-- The mesh cores at or after the cursor `core_idx` stored as `CORE_HEALTHY`,
in ascending id order: the cores the scan of `initialMapping` can still reach. -/
def availableFrom (P : GlobalParams) (cs : List (Int × CoreStatus)) (core_idx : Int) :
    List Int :=
  (coreIds P).filter fun i =>
    decide (core_idx ≤ i ∧ mapFind cs i = some CoreStatus.CORE_HEALTHY)

/-! ## The placement of the spec

The spec calls a core available to host a task when its status is `HEALTHY` or
`SPARE` (sections 3, 4.2 and 4.4).  The definitions below are the placement and
the relocation read with that availability: they are the loops of the manager
with the test on `CORE_HEALTHY` replaced by the availability of the spec, to be
compared with the loops of the source. -/

/-- Availability as the spec words it: `HEALTHY` and `SPARE` both denote
"available to host a task". -/
def specAvailable (st : CoreStatus) : Prop :=
  st = CoreStatus.CORE_HEALTHY ∨ st = CoreStatus.CORE_SPARE

instance (st : CoreStatus) : Decidable (specAvailable st) := by
  unfold specAvailable; infer_instance

/-- The scan of the spec's `initialMapping` (section 4.2): from the cursor on,
skip any core whose status is not available. -/
def skipUnavailableSpec (P : GlobalParams) :
    Nat → List (Int × CoreStatus) → Int → Int × List (Int × CoreStatus)
  | 0, cs, core_idx => (core_idx, (mapIndex P.status_zero cs core_idx).2)
  | n + 1, cs, core_idx =>
    let r := mapIndex P.status_zero cs core_idx
    if ¬ specAvailable r.1 ∧ core_idx < totalCores P then
      skipUnavailableSpec P n r.2 (core_idx + 1)
    else (core_idx, r.2)

/-- The loop over the tasks of the spec's `initialMapping`: the first available
core found is assigned and marked `BUSY`, and the cursor advances past it. -/
def mapTasksSpec (P : GlobalParams) :
    List Task → Int → List (Int × Int) → List (Int × CoreStatus) →
      List (Int × Int) × List (Int × CoreStatus)
  | [], _, tm, cs => (tm, cs)
  | task :: rest, core_idx, tm, cs =>
    if core_idx ≥ totalCores P then (tm, cs)
    else
      let r := skipUnavailableSpec P (totalCores P - core_idx).toNat cs core_idx
      if r.1 < totalCores P then
        mapTasksSpec P rest (r.1 + 1) (mapSet tm task.task_id r.1)
          (mapSet r.2 r.1 CoreStatus.CORE_BUSY)
      else mapTasksSpec P rest r.1 tm r.2

/-- The operation `initialMapping` of the spec (section 4.2). -/
def initialMappingSpec (P : GlobalParams) (s : NoximManagerCore) (tasks : List Task) :
    NoximManagerCore :=
  let r := mapTasksSpec P tasks 0 s.task_map s.core_status
  { task_map := r.1, core_status := r.2, all_tasks := tasks }

/-- The search of the spec's relocation (section 4.4, step 3): the cost is
computed for every core whose status is `HEALTHY` or `SPARE`, and the first
core of least cost wins. -/
def spareLoopSpec (P : GlobalParams) (tm : List (Int × Int)) (current_task : Task) :
    List Int → Int → Int → List (Int × CoreStatus) → Int × List (Int × CoreStatus)
  | [], best_core, _, cs => (best_core, cs)
  | i :: rest, best_core, min_energy, cs =>
    let r := mapIndex P.status_zero cs i
    if specAvailable r.1 then
      let e := calculateTaskEnergyOnCore P tm r.2 current_task i
      if e.1 < min_energy then spareLoopSpec P tm current_task rest i e.1 e.2
      else spareLoopSpec P tm current_task rest best_core min_energy e.2
    else spareLoopSpec P tm current_task rest best_core min_energy r.2

/-- The destination the spec's relocation chooses for a task (or `-1`). -/
def findBestSpareCoreSpec (P : GlobalParams) (s : NoximManagerCore) (task_id : Int) :
    Int × List (Int × CoreStatus) :=
  match lookupTask s.all_tasks task_id with
  | none => (-1, s.core_status)
  | some current_task =>
    spareLoopSpec P s.task_map current_task (coreIds P) (-1) minEnergyInit s.core_status

/-- The relocation procedure of the spec (section 4.4, steps 1 to 5). -/
def handleFaultSpec (P : GlobalParams) (s : NoximManagerCore)
    (faulty_core_x faulty_core_y : Int) : NoximManagerCore :=
  let faulty_core_id := faulty_core_y * P.mesh_dim_x + faulty_core_x
  let task_to_move := taskOnCore s.task_map faulty_core_id
  if task_to_move ≠ -1 then
    let r := findBestSpareCoreSpec P s task_to_move
    if r.1 ≠ -1 then
      { s with
        task_map := mapSet s.task_map task_to_move r.1
        core_status := mapSet r.2 r.1 CoreStatus.CORE_BUSY }
    else { s with core_status := r.2 }
  else s

/-- The operation `injectFault` of the spec (section 4.4). -/
def injectFaultSpec (P : GlobalParams) (s : NoximManagerCore) (x y : Int) :
    NoximManagerCore :=
  let core_id := y * P.mesh_dim_x + x
  if (mapFind s.core_status core_id).isSome then handleFaultSpec P (markFaulty P s x y) x y
  else s

/-! ## The snapshot recorder -/

/-- The loop of `dumpState` that sums `total_energy` over `all_tasks`; the
state is threaded because `calculateTaskEnergyOnCore` reads `core_status[...]`. -/
def totalEnergyLoop (P : GlobalParams) :
    List Task → Int → NoximManagerCore → Int × NoximManagerCore
  | [], total_energy, s => (total_energy, s)
  | task :: rest, total_energy, s =>
    let core_id := getTaskLocation s task.task_id
    if core_id ≠ -1 then
      let e := calculateTaskEnergyOnCore P s.task_map s.core_status task core_id
      totalEnergyLoop P rest (total_energy + e.1) { s with core_status := e.2 }
    else totalEnergyLoop P rest total_energy s

/-- The value of `total_energy` that `dumpState` computes in state `s`. -/
def totalEnergy (P : GlobalParams) (s : NoximManagerCore) : Int :=
  (totalEnergyLoop P s.all_tasks 0 s).1

/-- The name `status_str` that `dumpState` prints for a status. -/
def statusName (st : CoreStatus) : String :=
  if st = CoreStatus.CORE_FAULTY then "FAULTY"
  else if st = CoreStatus.CORE_BUSY then "BUSY"
  else if st = CoreStatus.CORE_SPARE then "SPARE"
  else "HEALTHY"

/-- The text `dumpState` writes for one core. -/
def coreText (P : GlobalParams) (tm : List (Int × Int)) (id x y : Int)
    (st : CoreStatus) : String :=
  "      \x7b\n" ++
  "        \"id\": " ++ toString id ++ ",\n" ++
  "        \"x\": " ++ toString x ++ ",\n" ++
  "        \"y\": " ++ toString y ++ ",\n" ++
  "        \"status\": \"" ++ statusName st ++ "\",\n" ++
  (if taskOnCore tm id ≠ -1 then
    "        \"task_id\": " ++ toString (taskOnCore tm id) ++ "\n"
   else "        \"task_id\": null\n") ++
  (if id = P.mesh_dim_x * P.mesh_dim_y - 1 then "      \x7d\n" else "      \x7d,\n")

/-- The inner loop of `dumpState`, `for (int x = 0; x < mesh_dim_x; x++)`, with
the text written so far and the registry (read through `core_status[id]`) as
loop state. -/
def coresRow (P : GlobalParams) (tm : List (Int × Int)) (y : Int) :
    List Int → String → List (Int × CoreStatus) → String × List (Int × CoreStatus)
  | [], out, cs => (out, cs)
  | x :: rest, out, cs =>
    let id := y * P.mesh_dim_x + x
    let r := mapIndex P.status_zero cs id
    coresRow P tm y rest (out ++ coreText P tm id x y r.1) r.2

/-- The outer loop of `dumpState`, `for (int y = 0; y < mesh_dim_y; y++)`. -/
def coresLoop (P : GlobalParams) (tm : List (Int × Int)) :
    List Int → String → List (Int × CoreStatus) → String × List (Int × CoreStatus)
  | [], out, cs => (out, cs)
  | y :: rest, out, cs =>
    let r := coresRow P tm y ((List.range P.mesh_dim_x.toNat).map Int.ofNat) out cs
    coresLoop P tm rest r.1 r.2

/-- The method `NoximManagerCore::dumpState`, for a log file that can be opened:
the state after the call and the content of the file after the append.
`showDouble` is the text `operator<<` writes for a `double` holding the given
integer value; it belongs to the stream library and is kept as a parameter. -/
def dumpState (P : GlobalParams) (showDouble : Int → String) (s : NoximManagerCore)
    (title : String) (log : String) : NoximManagerCore × String :=
  let e := totalEnergyLoop P s.all_tasks 0 s
  let c := coresLoop P e.2.task_map ((List.range P.mesh_dim_y.toNat).map Int.ofNat) ""
    e.2.core_status
  ({ e.2 with core_status := c.2 },
    log ++ (if log = "" then "[\n" else ",\n") ++
    "  \x7b\n" ++
    "    \"title\": \"" ++ title ++ "\",\n" ++
    "    \"width\": " ++ toString P.mesh_dim_x ++ ",\n" ++
    "    \"height\": " ++ toString P.mesh_dim_y ++ ",\n" ++
    "    \"total_energy\": " ++ showDouble e.1 ++ ",\n" ++
    "    \"cores\": [\n" ++
    c.1 ++
    "    ]\n" ++
    "  \x7d")

/-- The closing of the log by `sc_main`: `json_close << "\n]" << endl`. -/
def closeLog (log : String) : String :=
  log ++ "\n]" ++ "\n"

/-- The list of ten tasks of the reference scenario of the spec: task `i`
and task `i - 1` declare each other as partners with volume `100`. -/
def chainTasks : List Task :=
  (List.range 10).map fun i =>
    { task_id := (i : Int)
      computation_load := 1000
      communication_partners :=
        (if i > 0 then [((i : Int) - 1, 100)] else []) ++
        (if i < 9 then [((i : Int) + 1, 100)] else []) }

/-- Two tasks that declare each other as partners with volume `50`. -/
def pairTasks : List Task :=
  [ { task_id := 0, computation_load := 1000, communication_partners := [(1, 50)] },
    { task_id := 1, computation_load := 1000, communication_partners := [(0, 50)] } ]

/-- The consistency of the two maps that every call preserves: both are
ordered maps, every mesh core is registered, every assigned core is a mesh core
that is not `CORE_HEALTHY`, and no core is assigned to two tasks. -/
structure InvMaps (P : GlobalParams) (tm : List (Int × Int))
    (cs : List (Int × CoreStatus)) : Prop where
  tm_sorted : keysAsc tm
  cs_sorted : keysAsc cs
  cores : ∀ i, 0 ≤ i → i < totalCores P → (mapFind cs i).isSome
  placed : ∀ t c, mapFind tm t = some c →
    0 ≤ c ∧ c < totalCores P ∧ mapFind cs c ≠ some CoreStatus.CORE_HEALTHY
  unique : ∀ t t' c, mapFind tm t = some c → mapFind tm t' = some c → t = t'

/-- The invariant of a manager state. -/
def Inv (P : GlobalParams) (s : NoximManagerCore) : Prop :=
  InvMaps P s.task_map s.core_status

open CoreStatus

/-! ## Lemmas on the ordered maps -/

theorem mapFind_mapSet {β : Type} (m : List (Int × β)) (k k' : Int) (v : β) :
    mapFind (mapSet m k v) k' = if k' = k then some v else mapFind m k' := by
  induction m with
  | nil =>
    simp only [mapSet, mapFind]
    split_ifs <;> first | rfl | (exfalso; omega)
  | cons p m ih =>
    obtain ⟨a, b⟩ := p
    simp only [mapSet]
    split_ifs <;> simp only [mapFind, ih] <;> split_ifs <;> first | rfl | (exfalso; omega)

theorem mapFind_mapSet_self {β : Type} (m : List (Int × β)) (k : Int) (v : β) :
    mapFind (mapSet m k v) k = some v := by
  rw [mapFind_mapSet]; simp

theorem mapFind_mapSet_ne {β : Type} (m : List (Int × β)) {k k' : Int} (v : β)
    (h : k' ≠ k) : mapFind (mapSet m k v) k' = mapFind m k' := by
  rw [mapFind_mapSet]; simp [h]

theorem mem_mapSet {β : Type} (m : List (Int × β)) (k : Int) (v : β) (p : Int × β)
    (hp : p ∈ mapSet m k v) : p = (k, v) ∨ (p ∈ m ∧ p.1 ≠ k) ∨ (p ∈ m ∧ ¬ keysAsc m) := by
  induction m with
  | nil => simp [mapSet] at hp; exact Or.inl hp
  | cons q m ih =>
    obtain ⟨a, b⟩ := q
    by_cases h1 : k = a
    · subst h1
      simp only [mapSet, if_true, List.mem_cons] at hp
      rcases hp with hp | hp
      · exact Or.inl hp
      · by_cases hk : p.1 = k
        · right; right
          refine ⟨List.mem_cons_of_mem _ hp, ?_⟩
          intro hs
          unfold keysAsc at hs
          simp only [List.map_cons, List.pairwise_cons, List.mem_map] at hs
          have := hs.1 p.1 ⟨p, hp, rfl⟩
          omega
        · exact Or.inr (Or.inl ⟨List.mem_cons_of_mem _ hp, hk⟩)
    · by_cases h2 : k < a
      · simp only [mapSet, h1, h2, if_true, if_false, List.mem_cons] at hp
        rcases hp with hp | hp | hp
        · exact Or.inl hp
        · subst hp
          exact Or.inr (Or.inl ⟨List.mem_cons_self _ _, fun e => h1 e.symm⟩)
        · by_cases hk : p.1 = k
          · right; right
            refine ⟨List.mem_cons_of_mem _ hp, ?_⟩
            intro hs
            unfold keysAsc at hs
            simp only [List.map_cons, List.pairwise_cons, List.mem_map] at hs
            have := hs.1 p.1 ⟨p, hp, rfl⟩
            omega
          · exact Or.inr (Or.inl ⟨List.mem_cons_of_mem _ hp, hk⟩)
      · simp only [mapSet, h1, h2, if_false, List.mem_cons] at hp
        rcases hp with hp | hp
        · subst hp
          exact Or.inr (Or.inl ⟨List.mem_cons_self _ _, fun e => h1 e.symm⟩)
        · rcases ih hp with h | ⟨h, hk⟩ | ⟨h, hk⟩
          · exact Or.inl h
          · exact Or.inr (Or.inl ⟨List.mem_cons_of_mem _ h, hk⟩)
          · right; right
            refine ⟨List.mem_cons_of_mem _ h, ?_⟩
            intro hs
            apply hk
            unfold keysAsc at hs ⊢
            simp only [List.map_cons, List.pairwise_cons] at hs
            exact hs.2

theorem keysAsc_cons {β : Type} (a : Int) (b : β) (m : List (Int × β)) :
    keysAsc ((a, b) :: m) ↔ (∀ p ∈ m, a < p.1) ∧ keysAsc m := by
  unfold keysAsc
  simp only [List.map_cons, List.pairwise_cons, List.mem_map]
  constructor
  · rintro ⟨h1, h2⟩
    exact ⟨fun p hp => h1 p.1 ⟨p, hp, rfl⟩, h2⟩
  · rintro ⟨h1, h2⟩
    refine ⟨?_, h2⟩
    rintro k ⟨p, hp, rfl⟩
    exact h1 p hp

theorem keysAsc_mapSet {β : Type} (m : List (Int × β)) (k : Int) (v : β)
    (h : keysAsc m) : keysAsc (mapSet m k v) := by
  induction m with
  | nil => simp [mapSet, keysAsc]
  | cons q m ih =>
    obtain ⟨a, b⟩ := q
    rw [keysAsc_cons] at h
    by_cases h1 : k = a
    · subst h1
      simp only [mapSet, if_true]
      rw [keysAsc_cons]; exact h
    · by_cases h2 : k < a
      · simp only [mapSet, h1, h2, if_true, if_false]
        rw [keysAsc_cons, keysAsc_cons]
        refine ⟨?_, h⟩
        intro p hp
        rcases List.mem_cons.1 hp with hp | hp
        · subst hp; exact h2
        · have := h.1 p hp; omega
      · simp only [mapSet, h1, h2, if_false]
        rw [keysAsc_cons]
        refine ⟨?_, ih h.2⟩
        intro p hp
        rcases mem_mapSet m k v p hp with e | ⟨hm, _⟩ | ⟨hm, _⟩
        · subst e; show a < k; omega
        · exact h.1 p hm
        · exact h.1 p hm

theorem mapFind_none_of_lt {β : Type} (m : List (Int × β)) (k : Int)
    (h : ∀ p ∈ m, k < p.1) : mapFind m k = none := by
  induction m with
  | nil => rfl
  | cons q m ih =>
    obtain ⟨a, b⟩ := q
    have ha : k < a := h (a, b) (List.mem_cons_self _ _)
    have hne : ¬ a = k := by omega
    simp only [mapFind, hne, if_false]
    exact ih (fun p hp => h p (List.mem_cons_of_mem _ hp))

theorem mapFind_of_mem {β : Type} (m : List (Int × β)) (k : Int) (v : β)
    (hs : keysAsc m) (h : (k, v) ∈ m) : mapFind m k = some v := by
  induction m with
  | nil => simp at h
  | cons q m ih =>
    obtain ⟨a, b⟩ := q
    rw [keysAsc_cons] at hs
    rcases List.mem_cons.1 h with e | hm
    · injection e with e1 e2
      subst e1; subst e2
      simp [mapFind]
    · have : a < k := hs.1 (k, v) hm
      have hne : ¬ a = k := by omega
      simp only [mapFind, hne, if_false]
      exact ih hs.2 hm

theorem mem_of_mapFind {β : Type} (m : List (Int × β)) (k : Int) (v : β)
    (h : mapFind m k = some v) : (k, v) ∈ m := by
  induction m with
  | nil => simp [mapFind] at h
  | cons q m ih =>
    obtain ⟨a, b⟩ := q
    by_cases e : a = k
    · subst e
      simp only [mapFind, if_true, Option.some.injEq] at h
      subst h
      exact List.mem_cons_self _ _
    · simp only [mapFind, e, if_false] at h
      exact List.mem_cons_of_mem _ (ih h)

theorem mapSet_eq_self {β : Type} (m : List (Int × β)) (k : Int) (v : β)
    (hs : keysAsc m) (h : mapFind m k = some v) : mapSet m k v = m := by
  induction m with
  | nil => simp [mapFind] at h
  | cons q m ih =>
    obtain ⟨a, b⟩ := q
    rw [keysAsc_cons] at hs
    by_cases e : a = k
    · subst e
      simp only [mapFind, if_true, Option.some.injEq] at h
      subst h
      simp [mapSet]
    · simp only [mapFind, e, if_false] at h
      have hm := mem_of_mapFind m k v h
      have hlt : a < k := hs.1 (k, v) hm
      have h1 : ¬ k = a := fun x => e x.symm
      have h2 : ¬ k < a := by omega
      simp only [mapSet, h1, h2, if_false]
      rw [ih hs.2 h]

theorem mapIndex_of_some {β : Type} (d : β) (m : List (Int × β)) (k : Int) (v : β)
    (h : mapFind m k = some v) : mapIndex d m k = (v, m) := by
  simp [mapIndex, h]

theorem mapIndex_fst {β : Type} (d : β) (m : List (Int × β)) (k : Int) :
    mapFind (mapIndex d m k).2 k = some (mapIndex d m k).1 := by
  unfold mapIndex
  cases h : mapFind m k with
  | none => simp [mapFind_mapSet_self]
  | some v => simp [h]

theorem mapIndex_keep {β : Type} (d : β) (m : List (Int × β)) (k k' : Int) (v : β)
    (h : mapFind m k' = some v) : mapFind (mapIndex d m k).2 k' = some v := by
  unfold mapIndex
  cases hk : mapFind m k with
  | none =>
    have hne : k' ≠ k := by
      intro e; rw [e, hk] at h; cases h
    simp [mapFind_mapSet_ne _ _ hne, h]
  | some w => simpa using h

theorem mapIndex_back {β : Type} (d : β) (m : List (Int × β)) (k k' : Int)
    (h : k' ≠ k) : mapFind (mapIndex d m k).2 k' = mapFind m k' := by
  unfold mapIndex
  cases hk : mapFind m k with
  | none => simp [mapFind_mapSet_ne _ _ h]
  | some w => simp

theorem keysAsc_mapIndex {β : Type} (d : β) (m : List (Int × β)) (k : Int)
    (h : keysAsc m) : keysAsc (mapIndex d m k).2 := by
  unfold mapIndex
  cases hk : mapFind m k with
  | none => exact keysAsc_mapSet m k d h
  | some w => exact h

/-! ## Lemmas on the loops, valid in every state -/

/-- Reading `core_status[k]` keeps every stored entry. -/
theorem skipUnavailable_keep (P : GlobalParams) (n : Nat) (cs : List (Int × CoreStatus))
    (core_idx k : Int) (v : CoreStatus) (h : mapFind cs k = some v) :
    mapFind (skipUnavailable P n cs core_idx).2 k = some v := by
  induction n generalizing cs core_idx with
  | zero => exact mapIndex_keep _ _ _ _ _ h
  | succ n ih =>
    simp only [skipUnavailable]
    split_ifs
    · exact ih _ _ (mapIndex_keep _ _ _ _ _ h)
    · exact mapIndex_keep _ _ _ _ _ h

/-- The cursor only moves forward. -/
theorem skipUnavailable_le (P : GlobalParams) (n : Nat) (cs : List (Int × CoreStatus))
    (core_idx : Int) : core_idx ≤ (skipUnavailable P n cs core_idx).1 := by
  induction n generalizing cs core_idx with
  | zero => simp [skipUnavailable]
  | succ n ih =>
    simp only [skipUnavailable]
    split_ifs
    · have := ih (mapIndex P.status_zero cs core_idx).2 (core_idx + 1)
      omega
    · simp

/-- When the loop stops below the bound, it stops on a core stored as
`CORE_HEALTHY`. -/
theorem skipUnavailable_healthy (P : GlobalParams) (n : Nat)
    (cs : List (Int × CoreStatus)) (core_idx : Int)
    (hn : (totalCores P - core_idx).toNat ≤ n)
    (hlt : (skipUnavailable P n cs core_idx).1 < totalCores P) :
    mapFind (skipUnavailable P n cs core_idx).2 (skipUnavailable P n cs core_idx).1
      = some CORE_HEALTHY := by
  induction n generalizing cs core_idx with
  | zero =>
    simp only [skipUnavailable] at hlt
    omega
  | succ n ih =>
    simp only [skipUnavailable] at hlt ⊢
    split_ifs at hlt ⊢ with hc
    · exact ih _ _ (by omega) hlt
    · have h1 := mapIndex_fst P.status_zero cs core_idx
      have h2 : (mapIndex P.status_zero cs core_idx).1 = CORE_HEALTHY := by
        by_contra hne
        exact hc ⟨hne, hlt⟩
      simpa [h2] using h1

theorem skipUnavailable_keysAsc (P : GlobalParams) (n : Nat) (cs : List (Int × CoreStatus))
    (core_idx : Int) (h : keysAsc cs) : keysAsc (skipUnavailable P n cs core_idx).2 := by
  induction n generalizing cs core_idx with
  | zero => exact keysAsc_mapIndex _ _ _ h
  | succ n ih =>
    simp only [skipUnavailable]
    split_ifs
    · exact ih _ _ (keysAsc_mapIndex _ _ _ h)
    · exact keysAsc_mapIndex _ _ _ h

/-- On a core stored as `CORE_HEALTHY` the loop does not move and reads only. -/
theorem skipUnavailable_of_healthy (P : GlobalParams) (n : Nat)
    (cs : List (Int × CoreStatus)) (core_idx : Int)
    (h : mapFind cs core_idx = some CORE_HEALTHY) :
    skipUnavailable P n cs core_idx = (core_idx, cs) := by
  cases n with
  | zero => simp [skipUnavailable, mapIndex_of_some _ _ _ _ h]
  | succ n => simp [skipUnavailable, mapIndex_of_some _ _ _ _ h]

/-- The loop result does not depend on the measure argument once it is at
least `width * height - core_idx`: the loop has ended by then. -/
theorem skipUnavailable_measure (P : GlobalParams) (n : Nat)
    (cs : List (Int × CoreStatus)) (core_idx : Int)
    (hn : (totalCores P - core_idx).toNat ≤ n) :
    skipUnavailable P n cs core_idx
      = skipUnavailable P (totalCores P - core_idx).toNat cs core_idx := by
  induction n generalizing cs core_idx with
  | zero =>
    have : (totalCores P - core_idx).toNat = 0 := by omega
    rw [this]
  | succ n ih =>
    by_cases hlt : core_idx < totalCores P
    · have hm : (totalCores P - core_idx).toNat
          = (totalCores P - (core_idx + 1)).toNat + 1 := by omega
      rw [hm]
      simp only [skipUnavailable]
      split_ifs
      · exact ih _ _ (by omega)
      · rfl
    · have hm : (totalCores P - core_idx).toNat = 0 := by omega
      rw [hm]
      simp only [skipUnavailable, hlt, and_false, if_false]

theorem energyLoop_keep (P : GlobalParams) (tm : List (Int × Int)) (core_id : Int)
    (ps : List (Int × Int)) (energy : Int) (cs : List (Int × CoreStatus))
    (k : Int) (v : CoreStatus) (h : mapFind cs k = some v) :
    mapFind (energyLoop P tm core_id ps energy cs).2 k = some v := by
  induction ps generalizing energy cs with
  | nil => simpa [energyLoop] using h
  | cons p ps ih =>
    obtain ⟨partner_id, volume⟩ := p
    simp only [energyLoop]
    split
    · split_ifs
      · exact ih _ _ (mapIndex_keep _ _ _ _ _ h)
      · exact ih _ _ (mapIndex_keep _ _ _ _ _ h)
    · exact ih _ _ h

theorem energyLoop_keysAsc (P : GlobalParams) (tm : List (Int × Int)) (core_id : Int)
    (ps : List (Int × Int)) (energy : Int) (cs : List (Int × CoreStatus))
    (h : keysAsc cs) : keysAsc (energyLoop P tm core_id ps energy cs).2 := by
  induction ps generalizing energy cs with
  | nil => simpa [energyLoop] using h
  | cons p ps ih =>
    obtain ⟨partner_id, volume⟩ := p
    simp only [energyLoop]
    split
    · split_ifs
      · exact ih _ _ (keysAsc_mapIndex _ _ _ h)
      · exact ih _ _ (keysAsc_mapIndex _ _ _ h)
    · exact ih _ _ h

/-- When every partner core of the table is in the registry, computing an
energy only reads the registry. -/
theorem energyLoop_snd (P : GlobalParams) (tm : List (Int × Int)) (core_id : Int)
    (ps : List (Int × Int)) (energy : Int) (cs : List (Int × CoreStatus))
    (h : ∀ t c, mapFind tm t = some c → (mapFind cs c).isSome) :
    (energyLoop P tm core_id ps energy cs).2 = cs := by
  induction ps generalizing energy with
  | nil => rfl
  | cons p ps ih =>
    obtain ⟨partner_id, volume⟩ := p
    simp only [energyLoop]
    split
    · rename_i c hc
      have hsome := h _ _ hc
      obtain ⟨v, hv⟩ := Option.isSome_iff_exists.1 hsome
      rw [mapIndex_of_some _ _ _ _ hv]
      split_ifs
      · exact ih _
      · exact ih _
    · exact ih _

theorem spareLoop_keep (P : GlobalParams) (tm : List (Int × Int)) (task : Task)
    (is : List Int) (best min_energy : Int) (cs : List (Int × CoreStatus))
    (k : Int) (v : CoreStatus) (h : mapFind cs k = some v) :
    mapFind (spareLoop P tm task is best min_energy cs).2 k = some v := by
  induction is generalizing best min_energy cs with
  | nil => simpa [spareLoop] using h
  | cons i is ih =>
    simp only [spareLoop]
    have h1 := mapIndex_keep P.status_zero cs i k v h
    split_ifs
    · exact ih _ _ _ (energyLoop_keep _ _ _ _ _ _ _ _ h1)
    · exact ih _ _ _ (energyLoop_keep _ _ _ _ _ _ _ _ h1)
    · exact ih _ _ _ h1

theorem spareLoop_keysAsc (P : GlobalParams) (tm : List (Int × Int)) (task : Task)
    (is : List Int) (best min_energy : Int) (cs : List (Int × CoreStatus))
    (h : keysAsc cs) : keysAsc (spareLoop P tm task is best min_energy cs).2 := by
  induction is generalizing best min_energy cs with
  | nil => simpa [spareLoop] using h
  | cons i is ih =>
    simp only [spareLoop]
    have h1 := keysAsc_mapIndex P.status_zero cs i h
    split_ifs
    · exact ih _ _ _ (energyLoop_keysAsc _ _ _ _ _ _ h1)
    · exact ih _ _ _ (energyLoop_keysAsc _ _ _ _ _ _ h1)
    · exact ih _ _ _ h1

/-- The core the scan returns is the incoming `best_core`, or a scanned core
that is stored as `CORE_HEALTHY` when the scan ends. -/
theorem spareLoop_result (P : GlobalParams) (tm : List (Int × Int)) (task : Task)
    (is : List Int) (best min_energy : Int) (cs : List (Int × CoreStatus)) :
    (spareLoop P tm task is best min_energy cs).1 = best ∨
      ((spareLoop P tm task is best min_energy cs).1 ∈ is ∧
        mapFind (spareLoop P tm task is best min_energy cs).2
          (spareLoop P tm task is best min_energy cs).1 = some CORE_HEALTHY) := by
  induction is generalizing best min_energy cs with
  | nil => left; rfl
  | cons i is ih =>
    simp only [spareLoop]
    split_ifs with h1 h2
    · rcases ih i (calculateTaskEnergyOnCore P tm (mapIndex P.status_zero cs i).2 task i).1
        (calculateTaskEnergyOnCore P tm (mapIndex P.status_zero cs i).2 task i).2 with h | h
      · right
        rw [h]
        refine ⟨List.mem_cons_self _ _, ?_⟩
        apply spareLoop_keep
        apply energyLoop_keep
        have := mapIndex_fst P.status_zero cs i
        rw [h1] at this
        exact this
      · right
        exact ⟨List.mem_cons_of_mem _ h.1, h.2⟩
    · rcases ih best min_energy
        (calculateTaskEnergyOnCore P tm (mapIndex P.status_zero cs i).2 task i).2 with h | h
      · left; exact h
      · right; exact ⟨List.mem_cons_of_mem _ h.1, h.2⟩
    · rcases ih best min_energy (mapIndex P.status_zero cs i).2 with h | h
      · left; exact h
      · right; exact ⟨List.mem_cons_of_mem _ h.1, h.2⟩

/-- When no scanned core is stored as `CORE_HEALTHY`, the scan changes nothing. -/
theorem spareLoop_no_healthy (P : GlobalParams) (tm : List (Int × Int)) (task : Task)
    (is : List Int) (best min_energy : Int) (cs : List (Int × CoreStatus))
    (h : ∀ i ∈ is, ∃ st, mapFind cs i = some st ∧ st ≠ CORE_HEALTHY) :
    spareLoop P tm task is best min_energy cs = (best, cs) := by
  induction is generalizing best min_energy with
  | nil => rfl
  | cons i is ih =>
    obtain ⟨st, hst, hne⟩ := h i (List.mem_cons_self _ _)
    simp only [spareLoop, mapIndex_of_some _ _ _ _ hst, hne, if_false]
    exact ih _ _ (fun j hj => h j (List.mem_cons_of_mem _ hj))

theorem mem_coreIds (P : GlobalParams) (i : Int) :
    i ∈ coreIds P ↔ 0 ≤ i ∧ i < totalCores P := by
  unfold coreIds
  simp only [List.mem_map, List.mem_range]
  constructor
  · rintro ⟨n, hn, rfl⟩
    constructor
    · exact Int.ofNat_nonneg n
    · have : ((n : Nat) : Int) < ((totalCores P).toNat : Int) := by exact_mod_cast hn
      simp only [Int.ofNat_eq_coe]
      omega
  · rintro ⟨h0, h1⟩
    refine ⟨i.toNat, ?_, ?_⟩
    · omega
    · simp only [Int.ofNat_eq_coe]; omega

theorem coreIds_sorted (P : GlobalParams) : (coreIds P).Pairwise (· < ·) := by
  unfold coreIds
  rw [List.pairwise_map]
  have := List.pairwise_lt_range (totalCores P).toNat
  exact this.imp (fun h => by simp only [Int.ofNat_eq_coe]; exact_mod_cast h)

/-- The scan of `handleFault` returns `-1` when no entry points at the core. -/
theorem taskOnCore_none (tm : List (Int × Int)) (c : Int) (h : ∀ p ∈ tm, p.2 ≠ c) :
    taskOnCore tm c = -1 := by
  induction tm with
  | nil => rfl
  | cons p tm ih =>
    obtain ⟨t, c'⟩ := p
    have h1 : ¬ c' = c := h (t, c') (List.mem_cons_self _ _)
    simp only [taskOnCore, h1, if_false]
    exact ih (fun q hq => h q (List.mem_cons_of_mem _ hq))

/-- Otherwise it returns the task of an entry that points at the core. -/
theorem taskOnCore_mem (tm : List (Int × Int)) (c : Int) :
    (taskOnCore tm c = -1 ∧ ∀ p ∈ tm, p.2 ≠ c) ∨ (taskOnCore tm c, c) ∈ tm := by
  induction tm with
  | nil => left; exact ⟨rfl, by simp⟩
  | cons p tm ih =>
    obtain ⟨t, c'⟩ := p
    by_cases h1 : c' = c
    · right
      simp [taskOnCore, h1]
    · simp only [taskOnCore, h1, if_false]
      rcases ih with ⟨h, hall⟩ | h
      · left
        refine ⟨h, ?_⟩
        intro q hq
        rcases List.mem_cons.1 hq with e | e
        · subst e; exact h1
        · exact hall q e
      · right; exact List.mem_cons_of_mem _ h

/-! ## The relocation search and the fault handler, in every state -/

theorem findBestSpareCore_keep (P : GlobalParams) (s : NoximManagerCore) (task_id : Int)
    (k : Int) (v : CoreStatus) (h : mapFind s.core_status k = some v) :
    mapFind (findBestSpareCore P s task_id).2 k = some v := by
  unfold findBestSpareCore
  split
  · exact h
  · exact spareLoop_keep _ _ _ _ _ _ _ _ _ h

theorem findBestSpareCore_keysAsc (P : GlobalParams) (s : NoximManagerCore) (task_id : Int)
    (h : keysAsc s.core_status) : keysAsc (findBestSpareCore P s task_id).2 := by
  unfold findBestSpareCore
  split
  · exact h
  · exact spareLoop_keysAsc _ _ _ _ _ _ _ h

/-- A core returned by `findBestSpareCore` is a mesh core stored as
`CORE_HEALTHY` at the time of the commit. -/
theorem findBestSpareCore_healthy (P : GlobalParams) (s : NoximManagerCore) (task_id : Int)
    (h : (findBestSpareCore P s task_id).1 ≠ -1) :
    (findBestSpareCore P s task_id).1 ∈ coreIds P ∧
      mapFind (findBestSpareCore P s task_id).2 (findBestSpareCore P s task_id).1
        = some CORE_HEALTHY := by
  unfold findBestSpareCore at h ⊢
  cases hl : lookupTask s.all_tasks task_id with
  | none =>
    rw [hl] at h
    exact absurd rfl h
  | some task =>
    rw [hl] at h
    rcases spareLoop_result P s.task_map task (coreIds P) (-1) minEnergyInit s.core_status
      with e | e
    · exact absurd e h
    · exact e

/-- The loop of `initialMapping` never touches a core stored as `CORE_FAULTY`
and never makes it the location of a task. -/
theorem mapTasks_faulty (P : GlobalParams) (tasks : List Task) (core_idx : Int)
    (tm : List (Int × Int)) (cs : List (Int × CoreStatus)) (c : Int)
    (h : mapFind cs c = some CORE_FAULTY) :
    mapFind (mapTasks P tasks core_idx tm cs).2 c = some CORE_FAULTY ∧
      ∀ t, mapFind (mapTasks P tasks core_idx tm cs).1 t = some c → mapFind tm t = some c := by
  induction tasks generalizing core_idx tm cs with
  | nil => exact ⟨h, fun _ ht => ht⟩
  | cons task rest ih =>
    simp only [mapTasks]
    split_ifs with h1 h2
    · exact ⟨h, fun _ ht => ht⟩
    · have hk := skipUnavailable_keep P (totalCores P - core_idx).toNat cs core_idx c _ h
      have hh := skipUnavailable_healthy P (totalCores P - core_idx).toNat cs core_idx
        (le_refl _) h2
      have hne : c ≠ (skipUnavailable P (totalCores P - core_idx).toNat cs core_idx).1 := by
        intro e
        rw [← e, hk] at hh
        cases hh
      have hc : mapFind (mapSet (skipUnavailable P (totalCores P - core_idx).toNat cs core_idx).2
          (skipUnavailable P (totalCores P - core_idx).toNat cs core_idx).1 CORE_BUSY) c
          = some CORE_FAULTY := by
        rw [mapFind_mapSet_ne _ _ hne]; exact hk
      obtain ⟨ih1, ih2⟩ := ih _ _ _ hc
      refine ⟨ih1, ?_⟩
      intro t ht
      have := ih2 t ht
      rw [mapFind_mapSet] at this
      split_ifs at this with e
      · injection this with this
        exact absurd this.symm hne
      · exact this
    · exact ih _ _ _ (skipUnavailable_keep P _ cs core_idx c _ h)

theorem handleFault_faulty (P : GlobalParams) (s : NoximManagerCore) (x y c : Int)
    (h : mapFind s.core_status c = some CORE_FAULTY) :
    mapFind (handleFault P s x y).core_status c = some CORE_FAULTY ∧
      ∀ t, mapFind (handleFault P s x y).task_map t = some c →
        mapFind s.task_map t = some c := by
  unfold handleFault
  simp only
  split_ifs with h1 h2
  · obtain ⟨_, hh⟩ := findBestSpareCore_healthy P s _ h2
    have hk := findBestSpareCore_keep P s (taskOnCore s.task_map (y * P.mesh_dim_x + x)) c _ h
    have hne : c ≠ (findBestSpareCore P s (taskOnCore s.task_map (y * P.mesh_dim_x + x))).1 := by
      intro e
      rw [← e, hk] at hh
      cases hh
    refine ⟨?_, ?_⟩
    · show mapFind (mapSet _ _ _) c = _
      rw [mapFind_mapSet_ne _ _ hne]; exact hk
    · intro t ht
      change mapFind (mapSet _ _ _) t = _ at ht
      rw [mapFind_mapSet] at ht
      split_ifs at ht with e
      · injection ht with ht
        exact absurd ht.symm hne
      · exact ht
  · exact ⟨findBestSpareCore_keep P s _ c _ h, fun _ ht => ht⟩
  · exact ⟨h, fun _ ht => ht⟩

theorem injectFault_faulty (P : GlobalParams) (s : NoximManagerCore) (x y c : Int)
    (h : mapFind s.core_status c = some CORE_FAULTY) :
    mapFind (injectFault P s x y).core_status c = some CORE_FAULTY ∧
      ∀ t, mapFind (injectFault P s x y).task_map t = some c →
        mapFind s.task_map t = some c := by
  unfold injectFault
  simp only
  split_ifs with h1
  · apply handleFault_faulty
    show mapFind (mapSet _ _ _) c = _
    rw [mapFind_mapSet]
    split_ifs
    · rfl
    · exact h
  · exact ⟨h, fun _ ht => ht⟩

theorem step_faulty (P : GlobalParams) (s : NoximManagerCore) (call : Call) (c : Int)
    (h : mapFind s.core_status c = some CORE_FAULTY) :
    mapFind (step P s call).core_status c = some CORE_FAULTY ∧
      ∀ t, mapFind (step P s call).task_map t = some c → mapFind s.task_map t = some c := by
  cases call with
  | initialMapping tasks => exact mapTasks_faulty P tasks 0 s.task_map s.core_status c h
  | injectFault x y => exact injectFault_faulty P s x y c h

/-- The fault handler leaves the table alone when the scan returns `-1`. -/
theorem handleFault_of_none (P : GlobalParams) (s : NoximManagerCore) (x y : Int)
    (h : taskOnCore s.task_map (y * P.mesh_dim_x + x) = -1) : handleFault P s x y = s := by
  unfold handleFault
  simp [h]

/-! ## The invariant of reachable states -/

/-- Reads that only add registry entries keep the invariant. -/
theorem InvMaps.keep {P : GlobalParams} {tm : List (Int × Int)}
    {cs cs' : List (Int × CoreStatus)} (h : InvMaps P tm cs) (hs : keysAsc cs')
    (hk : ∀ k v, mapFind cs k = some v → mapFind cs' k = some v) : InvMaps P tm cs' := by
  refine ⟨h.tm_sorted, hs, ?_, ?_, h.unique⟩
  · intro i h0 h1
    obtain ⟨v, hv⟩ := Option.isSome_iff_exists.1 (h.cores i h0 h1)
    rw [hk i v hv]; rfl
  · intro t c htc
    obtain ⟨h0, h1, h2⟩ := h.placed t c htc
    refine ⟨h0, h1, ?_⟩
    obtain ⟨v, hv⟩ := Option.isSome_iff_exists.1 (h.cores c h0 h1)
    rw [hk c v hv]
    rw [hv] at h2
    exact h2

/-- Marking a core `CORE_FAULTY` keeps the invariant. -/
theorem InvMaps.fault {P : GlobalParams} {tm : List (Int × Int)}
    {cs : List (Int × CoreStatus)} (h : InvMaps P tm cs) (k : Int) :
    InvMaps P tm (mapSet cs k CORE_FAULTY) := by
  refine ⟨h.tm_sorted, keysAsc_mapSet _ _ _ h.cs_sorted, ?_, ?_, h.unique⟩
  · intro i h0 h1
    rw [mapFind_mapSet]
    split_ifs
    · rfl
    · exact h.cores i h0 h1
  · intro t c htc
    obtain ⟨h0, h1, h2⟩ := h.placed t c htc
    refine ⟨h0, h1, ?_⟩
    rw [mapFind_mapSet]
    split_ifs
    · simp
    · exact h2

/-- Placing a task on a mesh core stored as `CORE_HEALTHY`, and marking the core
`CORE_BUSY`, keeps the invariant. -/
theorem InvMaps.place {P : GlobalParams} {tm : List (Int × Int)}
    {cs : List (Int × CoreStatus)} (h : InvMaps P tm cs) (t c : Int)
    (h0 : 0 ≤ c) (h1 : c < totalCores P) (hc : mapFind cs c = some CORE_HEALTHY) :
    InvMaps P (mapSet tm t c) (mapSet cs c CORE_BUSY) := by
  have hfree : ∀ t', mapFind tm t' ≠ some c := by
    intro t' ht'
    exact (h.placed t' c ht').2.2 hc
  refine ⟨keysAsc_mapSet _ _ _ h.tm_sorted, keysAsc_mapSet _ _ _ h.cs_sorted, ?_, ?_, ?_⟩
  · intro i hi0 hi1
    rw [mapFind_mapSet]
    split_ifs
    · rfl
    · exact h.cores i hi0 hi1
  · intro t' c' htc
    rw [mapFind_mapSet] at htc
    split_ifs at htc with e
    · injection htc with htc
      subst htc
      refine ⟨h0, h1, ?_⟩
      rw [mapFind_mapSet_self]; simp
    · obtain ⟨g0, g1, g2⟩ := h.placed t' c' htc
      refine ⟨g0, g1, ?_⟩
      have hne : c' ≠ c := by
        intro e'
        rw [e'] at htc
        exact hfree t' htc
      rw [mapFind_mapSet_ne _ _ hne]
      exact g2
  · intro t1 t2 c' ht1 ht2
    rw [mapFind_mapSet] at ht1 ht2
    split_ifs at ht1 ht2 with e1 e2 e2
    · rw [e1, e2]
    · injection ht1 with ht1
      rw [← ht1] at ht2
      exact absurd ht2 (hfree t2)
    · injection ht2 with ht2
      rw [← ht2] at ht1
      exact absurd ht1 (hfree t1)
    · exact h.unique t1 t2 c' ht1 ht2

theorem mapFind_fill (n : Nat) (i : Int) :
    mapFind (((List.range n).map Int.ofNat).foldl
      (fun cs i => mapSet cs i CORE_HEALTHY) []) i
      = if 0 ≤ i ∧ i < n then some CORE_HEALTHY else none := by
  induction n with
  | zero =>
    simp only [List.range_zero, List.map_nil, List.foldl_nil, mapFind]
    split_ifs with h
    · exfalso; omega
    · rfl
  | succ n ih =>
    rw [List.range_succ, List.map_append, List.foldl_append]
    simp only [List.map_cons, List.map_nil, List.foldl_cons, List.foldl_nil]
    rw [mapFind_mapSet, ih]
    simp only [Int.ofNat_eq_coe]
    split_ifs <;> first | rfl | (exfalso; omega)

theorem keysAsc_fill (l : List Int) (cs : List (Int × CoreStatus)) (h : keysAsc cs) :
    keysAsc (l.foldl (fun cs i => mapSet cs i CORE_HEALTHY) cs) := by
  induction l generalizing cs with
  | nil => exact h
  | cons i l ih => exact ih _ (keysAsc_mapSet _ _ _ h)

/-- The registry of a freshly constructed manager: exactly the mesh cores, all
`CORE_HEALTHY`. -/
theorem mapFind_create (P : GlobalParams) (i : Int) :
    mapFind (NoximManagerCore.create P).core_status i
      = if 0 ≤ i ∧ i < totalCores P then some CORE_HEALTHY else none := by
  unfold NoximManagerCore.create coreIds
  simp only
  rw [mapFind_fill]
  split_ifs <;> first | rfl | (exfalso; omega)

theorem inv_create (P : GlobalParams) : Inv P (NoximManagerCore.create P) := by
  refine ⟨?_, ?_, ?_, ?_, ?_⟩
  · simp [NoximManagerCore.create, keysAsc]
  · exact keysAsc_fill _ _ (by simp [keysAsc])
  · intro i h0 h1
    rw [mapFind_create]
    simp [h0, h1]
  · intro t c h
    simp [NoximManagerCore.create, mapFind] at h
  · intro t t' c h
    simp [NoximManagerCore.create, mapFind] at h

theorem mapTasks_inv (P : GlobalParams) (tasks : List Task) (core_idx : Int)
    (tm : List (Int × Int)) (cs : List (Int × CoreStatus)) (h0 : 0 ≤ core_idx)
    (h : InvMaps P tm cs) :
    InvMaps P (mapTasks P tasks core_idx tm cs).1 (mapTasks P tasks core_idx tm cs).2 := by
  induction tasks generalizing core_idx tm cs with
  | nil => exact h
  | cons task rest ih =>
    simp only [mapTasks]
    have hle := skipUnavailable_le P (totalCores P - core_idx).toNat cs core_idx
    have hkeep : InvMaps P tm (skipUnavailable P (totalCores P - core_idx).toNat cs core_idx).2 :=
      h.keep (skipUnavailable_keysAsc _ _ _ _ h.cs_sorted)
        (fun k v hv => skipUnavailable_keep _ _ _ _ _ _ hv)
    split_ifs with h1 h2
    · exact h
    · apply ih _ _ _ (by omega)
      exact hkeep.place _ _ (by omega) h2
        (skipUnavailable_healthy P _ cs core_idx (le_refl _) h2)
    · exact ih _ _ _ (by omega) hkeep

theorem inv_initialMapping {P : GlobalParams} {s : NoximManagerCore} (h : Inv P s)
    (tasks : List Task) : Inv P (initialMapping P s tasks) :=
  mapTasks_inv P tasks 0 s.task_map s.core_status (le_refl _) h

theorem inv_markFaulty {P : GlobalParams} {s : NoximManagerCore} (h : Inv P s)
    (x y : Int) : Inv P (markFaulty P s x y) :=
  InvMaps.fault h _

theorem inv_handleFault {P : GlobalParams} {s : NoximManagerCore} (h : Inv P s)
    (x y : Int) : Inv P (handleFault P s x y) := by
  unfold handleFault
  simp only
  have hkeep : InvMaps P s.task_map
      (findBestSpareCore P s (taskOnCore s.task_map (y * P.mesh_dim_x + x))).2 :=
    InvMaps.keep h (findBestSpareCore_keysAsc _ _ _ h.cs_sorted)
      (fun k v hv => findBestSpareCore_keep _ _ _ _ _ hv)
  split_ifs with h1 h2
  · obtain ⟨hm, hh⟩ := findBestSpareCore_healthy P s _ h2
    rw [mem_coreIds] at hm
    exact hkeep.place _ _ hm.1 hm.2 hh
  · exact hkeep
  · exact h

theorem inv_injectFault {P : GlobalParams} {s : NoximManagerCore} (h : Inv P s)
    (x y : Int) : Inv P (injectFault P s x y) := by
  unfold injectFault
  simp only
  split_ifs
  · exact inv_handleFault (inv_markFaulty h x y) x y
  · exact h

/-- Every reachable state satisfies the invariant. -/
theorem reachable_inv {P : GlobalParams} {s : NoximManagerCore} (h : Reachable P s) :
    Inv P s := by
  induction h with
  | create => exact inv_create P
  | initialMapping tasks _ ih => exact inv_initialMapping ih tasks
  | injectFault x y _ ih => exact inv_injectFault ih x y

/-! ## The relocation search under the invariant -/

theorem calculateTaskEnergyOnCore_snd {P : GlobalParams} {tm : List (Int × Int)}
    {cs : List (Int × CoreStatus)} (h : InvMaps P tm cs) (task : Task) (core_id : Int) :
    (calculateTaskEnergyOnCore P tm cs task core_id).2 = cs := by
  unfold calculateTaskEnergyOnCore
  apply energyLoop_snd
  intro t c htc
  obtain ⟨h0, h1, _⟩ := h.placed t c htc
  exact h.cores c h0 h1

/-- One iteration of the scan under the invariant. -/
theorem spareLoop_cons {P : GlobalParams} {tm : List (Int × Int)}
    {cs : List (Int × CoreStatus)} (h : InvMaps P tm cs) (task : Task) (i : Int)
    (rest : List Int) (best min_energy : Int) (h0 : 0 ≤ i) (h1 : i < totalCores P) :
    spareLoop P tm task (i :: rest) best min_energy cs =
      if mapFind cs i = some CORE_HEALTHY then
        if (calculateTaskEnergyOnCore P tm cs task i).1 < min_energy then
          spareLoop P tm task rest i (calculateTaskEnergyOnCore P tm cs task i).1 cs
        else spareLoop P tm task rest best min_energy cs
      else spareLoop P tm task rest best min_energy cs := by
  obtain ⟨v, hv⟩ := Option.isSome_iff_exists.1 (h.cores i h0 h1)
  simp only [spareLoop, mapIndex_of_some _ _ _ _ hv, calculateTaskEnergyOnCore_snd h, hv,
    Option.some.injEq]

/-- Under the invariant the scan only reads the registry. -/
theorem spareLoop_snd {P : GlobalParams} {tm : List (Int × Int)}
    {cs : List (Int × CoreStatus)} (h : InvMaps P tm cs) (task : Task)
    (is : List Int) (best min_energy : Int)
    (hin : ∀ i ∈ is, 0 ≤ i ∧ i < totalCores P) :
    (spareLoop P tm task is best min_energy cs).2 = cs := by
  induction is generalizing best min_energy with
  | nil => rfl
  | cons i rest ih =>
    obtain ⟨h0, h1⟩ := hin i (List.mem_cons_self _ _)
    have hrest : ∀ j ∈ rest, 0 ≤ j ∧ j < totalCores P :=
      fun j hj => hin j (List.mem_cons_of_mem _ hj)
    rw [spareLoop_cons h task i rest best min_energy h0 h1]
    split_ifs
    · exact ih _ _ hrest
    · exact ih _ _ hrest
    · exact ih _ _ hrest

/-- The scan returns the first core of least energy among the scanned cores
stored as `CORE_HEALTHY`, provided that energy is below the incoming
`min_energy`; otherwise it returns the incoming `best_core`. -/
theorem spareLoop_argmin {P : GlobalParams} {tm : List (Int × Int)}
    {cs : List (Int × CoreStatus)} (h : InvMaps P tm cs) (task : Task)
    (is : List Int) (best min_energy : Int)
    (hin : ∀ i ∈ is, 0 ≤ i ∧ i < totalCores P) (hsorted : is.Pairwise (· < ·)) :
    ((spareLoop P tm task is best min_energy cs).1 = best ∧
        ∀ i ∈ is, mapFind cs i = some CORE_HEALTHY →
          min_energy ≤ (calculateTaskEnergyOnCore P tm cs task i).1) ∨
      ((spareLoop P tm task is best min_energy cs).1 ∈ is ∧
        mapFind cs (spareLoop P tm task is best min_energy cs).1 = some CORE_HEALTHY ∧
        (calculateTaskEnergyOnCore P tm cs task
          (spareLoop P tm task is best min_energy cs).1).1 < min_energy ∧
        ∀ i ∈ is, mapFind cs i = some CORE_HEALTHY →
          (calculateTaskEnergyOnCore P tm cs task
              (spareLoop P tm task is best min_energy cs).1).1
            ≤ (calculateTaskEnergyOnCore P tm cs task i).1 ∧
          (i < (spareLoop P tm task is best min_energy cs).1 →
            (calculateTaskEnergyOnCore P tm cs task
              (spareLoop P tm task is best min_energy cs).1).1
            < (calculateTaskEnergyOnCore P tm cs task i).1)) := by
  induction is generalizing best min_energy with
  | nil => left; exact ⟨rfl, by simp⟩
  | cons i rest ih =>
    obtain ⟨h0, h1⟩ := hin i (List.mem_cons_self _ _)
    have hrest : ∀ j ∈ rest, 0 ≤ j ∧ j < totalCores P :=
      fun j hj => hin j (List.mem_cons_of_mem _ hj)
    rw [List.pairwise_cons] at hsorted
    obtain ⟨hlt, hsorted⟩ := hsorted
    rw [spareLoop_cons h task i rest best min_energy h0 h1]
    split_ifs with hi hc
    · rcases ih i (calculateTaskEnergyOnCore P tm cs task i).1 hrest hsorted with
        ⟨e, hall⟩ | ⟨hm, hh, hlow, hall⟩
      · right
        rw [e]
        refine ⟨List.mem_cons_self _ _, hi, hc, ?_⟩
        intro j hj hjh
        rcases List.mem_cons.1 hj with ej | ej
        · subst ej
          exact ⟨le_refl _, fun hh => absurd hh (lt_irrefl _)⟩
        · refine ⟨hall j ej hjh, ?_⟩
          intro hji
          have := hlt j ej
          omega
      · right
        refine ⟨List.mem_cons_of_mem _ hm, hh, by omega, ?_⟩
        intro j hj hjh
        rcases List.mem_cons.1 hj with ej | ej
        · subst ej
          exact ⟨by omega, fun _ => hlow⟩
        · exact hall j ej hjh
    · rcases ih best min_energy hrest hsorted with ⟨e, hall⟩ | ⟨hm, hh, hlow, hall⟩
      · left
        refine ⟨e, ?_⟩
        intro j hj hjh
        rcases List.mem_cons.1 hj with ej | ej
        · subst ej; omega
        · exact hall j ej hjh
      · right
        refine ⟨List.mem_cons_of_mem _ hm, hh, hlow, ?_⟩
        intro j hj hjh
        rcases List.mem_cons.1 hj with ej | ej
        · subst ej
          exact ⟨by omega, fun _ => by omega⟩
        · exact hall j ej hjh
    · rcases ih best min_energy hrest hsorted with ⟨e, hall⟩ | ⟨hm, hh, hlow, hall⟩
      · left
        refine ⟨e, ?_⟩
        intro j hj hjh
        rcases List.mem_cons.1 hj with ej | ej
        · subst ej; exact absurd hjh hi
        · exact hall j ej hjh
      · right
        refine ⟨List.mem_cons_of_mem _ hm, hh, hlow, ?_⟩
        intro j hj hjh
        rcases List.mem_cons.1 hj with ej | ej
        · subst ej; exact absurd hjh hi
        · exact hall j ej hjh

theorem findBestSpareCore_snd {P : GlobalParams} {s : NoximManagerCore} (h : Inv P s)
    (task_id : Int) : (findBestSpareCore P s task_id).2 = s.core_status := by
  unfold findBestSpareCore
  split
  · rfl
  · exact spareLoop_snd h _ _ _ _ (fun i hi => (mem_coreIds P i).1 hi)

/-- Under the invariant the fault handler either leaves the state alone or
moves the scanned task to the core `findBestSpareCore` returns. -/
theorem handleFault_eq {P : GlobalParams} {s : NoximManagerCore} (h : Inv P s)
    (x y : Int) :
    handleFault P s x y =
      if taskOnCore s.task_map (y * P.mesh_dim_x + x) ≠ -1 ∧
          (findBestSpareCore P s (taskOnCore s.task_map (y * P.mesh_dim_x + x))).1 ≠ -1 then
        { s with
          task_map := mapSet s.task_map (taskOnCore s.task_map (y * P.mesh_dim_x + x))
            (findBestSpareCore P s (taskOnCore s.task_map (y * P.mesh_dim_x + x))).1
          core_status := mapSet s.core_status
            (findBestSpareCore P s (taskOnCore s.task_map (y * P.mesh_dim_x + x))).1
            CORE_BUSY }
      else s := by
  unfold handleFault
  simp only [findBestSpareCore_snd h]
  split_ifs with h1 h2 h3 h3 h3
  · rfl
  · exact absurd ⟨h1, h2⟩ h3
  · exact absurd h3.2 h2
  · rfl
  · exact absurd h3.1 h1
  · rfl

/-! ## Initial placement on healthy cores -/

/-- The loop of `initialMapping` writes only the entries of the listed tasks. -/
theorem mapTasks_other (P : GlobalParams) (tasks : List Task) (core_idx : Int)
    (tm : List (Int × Int)) (cs : List (Int × CoreStatus)) (k : Int)
    (hk : k ∉ tasks.map Task.task_id) :
    mapFind (mapTasks P tasks core_idx tm cs).1 k = mapFind tm k := by
  induction tasks generalizing core_idx tm cs with
  | nil => rfl
  | cons task rest ih =>
    simp only [List.map_cons, List.mem_cons, not_or] at hk
    simp only [mapTasks]
    split_ifs
    · rfl
    · rw [ih _ _ _ hk.2, mapFind_mapSet_ne _ _ hk.1]
    · exact ih _ _ _ hk.2

/-- When the cores from the cursor on are stored as `CORE_HEALTHY` and there
are enough of them, the task at position `j` gets the core `core_idx + j`. -/
theorem mapTasks_healthy (P : GlobalParams) (tasks : List Task) (core_idx : Int)
    (tm : List (Int × Int)) (cs : List (Int × CoreStatus))
    (hlen : core_idx + tasks.length ≤ totalCores P)
    (hh : ∀ i, core_idx ≤ i → i < core_idx + tasks.length →
      mapFind cs i = some CORE_HEALTHY)
    (hnd : (tasks.map Task.task_id).Nodup) (j : Nat) (hj : j < tasks.length) :
    mapFind (mapTasks P tasks core_idx tm cs).1 (tasks.get ⟨j, hj⟩).task_id
      = some (core_idx + j) := by
  induction tasks generalizing core_idx tm cs j with
  | nil => simp at hj
  | cons task rest ih =>
    simp only [List.length_cons, Nat.cast_add, Nat.cast_one] at hlen hh
    simp only [List.map_cons, List.nodup_cons] at hnd
    have hlt : ¬ core_idx ≥ totalCores P := by omega
    have hhere := hh core_idx (le_refl _) (by omega)
    simp only [mapTasks, hlt, if_false, skipUnavailable_of_healthy P _ cs core_idx hhere]
    have hlt2 : core_idx < totalCores P := by omega
    simp only [hlt2, if_true]
    cases j with
    | zero =>
      show mapFind _ task.task_id = _
      rw [mapTasks_other _ _ _ _ _ _ hnd.1, mapFind_mapSet_self]
      simp only [Nat.cast_zero, add_zero]
    | succ j =>
      show mapFind _ (rest.get ⟨j, _⟩).task_id = _
      have hj2 : j < rest.length := by simpa using hj
      have := ih (core_idx + 1) (mapSet tm task.task_id core_idx)
        (mapSet cs core_idx CORE_BUSY) (by omega)
        (fun i hi1 hi2 => by
          rw [mapFind_mapSet_ne _ _ (by omega)]
          exact hh i (by omega) (by omega)) hnd.2 j hj2
      rw [this]
      congr 1
      push_cast
      omega

/-! ## The claims -/

theorem markFaulty_eq_self (P : GlobalParams) (s : NoximManagerCore) (x y : Int)
    (hs : keysAsc s.core_status)
    (h : mapFind s.core_status (y * P.mesh_dim_x + x) = some CORE_FAULTY) :
    markFaulty P s x y = s := by
  unfold markFaulty
  rw [mapSet_eq_self _ _ _ hs h]

/-- Under the invariant a fault injected twice leaves the state of the first
injection. -/
theorem injectFault_twice {P : GlobalParams} {s : NoximManagerCore} (h : Inv P s)
    (x y : Int) : injectFault P (injectFault P s x y) x y = injectFault P s x y := by
  by_cases hreg : (mapFind s.core_status (y * P.mesh_dim_x + x)).isSome
  · have h1 : Inv P (markFaulty P s x y) := inv_markFaulty h x y
    have hf : mapFind (markFaulty P s x y).core_status (y * P.mesh_dim_x + x)
        = some CORE_FAULTY := mapFind_mapSet_self _ _ _
    have e1 : injectFault P s x y = handleFault P (markFaulty P s x y) x y := by
      unfold injectFault; simp only [hreg, if_true]
    have again : ∀ s' : NoximManagerCore, keysAsc s'.core_status →
        mapFind s'.core_status (y * P.mesh_dim_x + x) = some CORE_FAULTY →
        injectFault P s' x y = handleFault P s' x y := by
      intro s' hs' hf'
      unfold injectFault
      simp only [hf', Option.isSome_some, if_true]
      rw [markFaulty_eq_self P s' x y hs' hf']
    rw [e1, handleFault_eq h1]
    split_ifs with hc
    · obtain ⟨ht, hd⟩ := hc
      obtain ⟨_, hh⟩ := findBestSpareCore_healthy P (markFaulty P s x y) _ hd
      rw [findBestSpareCore_snd h1] at hh
      have hne : y * P.mesh_dim_x + x ≠ (findBestSpareCore P (markFaulty P s x y)
          (taskOnCore (markFaulty P s x y).task_map (y * P.mesh_dim_x + x))).1 := by
        intro e
        rw [← e, hf] at hh
        cases hh
      have hmem : (taskOnCore (markFaulty P s x y).task_map (y * P.mesh_dim_x + x),
          y * P.mesh_dim_x + x) ∈ (markFaulty P s x y).task_map := by
        rcases taskOnCore_mem (markFaulty P s x y).task_map (y * P.mesh_dim_x + x) with
          ⟨e, _⟩ | hm
        · exact absurd e ht
        · exact hm
      have hfind := mapFind_of_mem _ _ _ h1.tm_sorted hmem
      rw [again]
      · apply handleFault_of_none
        apply taskOnCore_none
        intro p hp hp2
        rcases mem_mapSet _ _ _ p hp with e | ⟨hm, hk⟩ | ⟨_, hk⟩
        · rw [e] at hp2
          exact hne hp2.symm
        · have hq : mapFind (markFaulty P s x y).task_map p.1
              = some (y * P.mesh_dim_x + x) := by
            apply mapFind_of_mem _ _ _ h1.tm_sorted
            rw [← hp2]
            exact hm
          exact hk (h1.unique _ _ _ hq hfind)
        · exact hk h1.tm_sorted
      · exact keysAsc_mapSet _ _ _ h1.cs_sorted
      · show mapFind (mapSet _ _ _) _ = _
        rw [mapFind_mapSet_ne _ _ hne]
        exact hf
    · rw [again _ h1.cs_sorted hf, handleFault_eq h1]
      simp only [hc, if_false]
  · have e1 : injectFault P s x y = s := by
      unfold injectFault; simp only [hreg]; rfl
    rw [e1, e1]

/-- C1. Idempotence of `injectFault`: in every state reachable from a freshly
constructed manager by `initialMapping` and `injectFault` calls, and for every
coordinate pair, a second `injectFault(x, y)` leaves the core-status registry and
the assignment table exactly as the first call left them. -/
theorem injectFault_idempotent (P : GlobalParams) (s : NoximManagerCore)
    (hs : Reachable P s) (x y : Int) :
    (injectFault P (injectFault P s x y) x y).core_status
        = (injectFault P s x y).core_status ∧
      (injectFault P (injectFault P s x y) x y).task_map
        = (injectFault P s x y).task_map := by
  rw [injectFault_twice (reachable_inv hs)]
  exact ⟨rfl, rfl⟩

theorem injectFault_idempotent_witness :
    Reachable (mesh 4 4) mainState ∧
      (injectFault (mesh 4 4) (injectFault (mesh 4 4) mainState 0 0) 0 0).core_status
        = (injectFault (mesh 4 4) mainState 0 0).core_status ∧
      (injectFault (mesh 4 4) (injectFault (mesh 4 4) mainState 0 0) 0 0).task_map
        = (injectFault (mesh 4 4) mainState 0 0).task_map :=
  ⟨Reachable.initialMapping mainTasks Reachable.create,
    injectFault_idempotent (mesh 4 4) mainState
      (Reachable.initialMapping mainTasks Reachable.create) 0 0⟩

/-- C2. Relocation picks the cheapest available core, ties going to the lowest
id: in a reachable state, when `injectFault(x, y)` moves a task `t` from the
faulted core to a core `d`, then `d` is a mesh core that was `CORE_HEALTHY` once
the fault was marked, no such core is cheaper for the task than `d`, and every
such core with a smaller id is strictly more expensive. -/
theorem relocation_picks_cheapest (P : GlobalParams) (s : NoximManagerCore)
    (hs : Reachable P s) (x y t d : Int)
    (hbefore : mapFind s.task_map t = some (y * P.mesh_dim_x + x))
    (hafter : mapFind (injectFault P s x y).task_map t = some d)
    (hmoved : d ≠ y * P.mesh_dim_x + x) :
    ∃ task, lookupTask s.all_tasks t = some task ∧
      (0 ≤ d ∧ d < totalCores P) ∧
      mapFind (markFaulty P s x y).core_status d = some CORE_HEALTHY ∧
      ∀ c, 0 ≤ c → c < totalCores P →
        mapFind (markFaulty P s x y).core_status c = some CORE_HEALTHY →
        cost P (markFaulty P s x y) task d ≤ cost P (markFaulty P s x y) task c ∧
          (c < d → cost P (markFaulty P s x y) task d < cost P (markFaulty P s x y) task c) := by
  have h := reachable_inv hs
  have h1 : Inv P (markFaulty P s x y) := inv_markFaulty h x y
  have hsame : ∀ s' : NoximManagerCore, s'.task_map = s.task_map → d ≠ getTaskLocation s' t := by
    intro s' e hd
    unfold getTaskLocation at hd
    rw [e, hbefore] at hd
    exact hmoved hd
  by_cases hreg : (mapFind s.core_status (y * P.mesh_dim_x + x)).isSome
  · have e1 : injectFault P s x y = handleFault P (markFaulty P s x y) x y := by
      unfold injectFault; simp only [hreg, if_true]
    rw [e1, handleFault_eq h1] at hafter
    split_ifs at hafter with hc
    · obtain ⟨ht, hd⟩ := hc
      have hmem : (taskOnCore s.task_map (y * P.mesh_dim_x + x),
          y * P.mesh_dim_x + x) ∈ s.task_map := by
        rcases taskOnCore_mem s.task_map (y * P.mesh_dim_x + x) with ⟨e, _⟩ | hm
        · exact absurd e ht
        · exact hm
      have ht0 : taskOnCore s.task_map (y * P.mesh_dim_x + x) = t :=
        h.unique _ _ _ (mapFind_of_mem _ _ _ h.tm_sorted hmem) hbefore
      have htm : (markFaulty P s x y).task_map = s.task_map := rfl
      rw [htm, ht0] at hafter hd
      change mapFind (mapSet _ _ _) t = _ at hafter
      rw [mapFind_mapSet_self] at hafter
      injection hafter with hafter
      rw [hafter] at hd
      have hdef : d = (findBestSpareCore P (markFaulty P s x y) t).1 := hafter.symm
      unfold findBestSpareCore at hdef
      cases hl : lookupTask s.all_tasks t with
      | none =>
        have hl2 : lookupTask (markFaulty P s x y).all_tasks t = none := hl
        rw [hl2] at hdef
        exact absurd hdef hd
      | some task =>
        have hl2 : lookupTask (markFaulty P s x y).all_tasks t = some task := hl
        rw [hl2] at hdef
        simp only at hdef
        refine ⟨task, rfl, ?_⟩
        rcases spareLoop_argmin h1 task (coreIds P) (-1) minEnergyInit
            (fun i hi => (mem_coreIds P i).1 hi) (coreIds_sorted P) with
          ⟨e, _⟩ | ⟨hm, hh, _, hall⟩
        · rw [← hdef] at e
          exact absurd e hd
        · rw [← hdef] at hm hh hall
          refine ⟨(mem_coreIds P d).1 hm, hh, ?_⟩
          intro c hc0 hc1 hch
          exact hall c ((mem_coreIds P c).2 ⟨hc0, hc1⟩) hch
    · exfalso
      apply hsame (markFaulty P s x y) rfl
      unfold getTaskLocation
      rw [hafter]
  · exfalso
    have e1 : injectFault P s x y = s := by
      unfold injectFault; simp only [hreg]; rfl
    rw [e1, hbefore] at hafter
    injection hafter with hafter
    exact hmoved hafter.symm

theorem relocation_picks_cheapest_witness :
    Reachable (mesh 4 4) mainState ∧
      mapFind mainState.task_map 1 = some (0 * (mesh 4 4).mesh_dim_x + 1) ∧
      mapFind (injectFault (mesh 4 4) mainState 1 0).task_map 1 = some 12 ∧
      (12 : Int) ≠ 0 * (mesh 4 4).mesh_dim_x + 1 ∧
      ∃ task, lookupTask mainState.all_tasks 1 = some task ∧
        (0 ≤ (12 : Int) ∧ 12 < totalCores (mesh 4 4)) ∧
        mapFind (markFaulty (mesh 4 4) mainState 1 0).core_status 12 = some CORE_HEALTHY ∧
        ∀ c, 0 ≤ c → c < totalCores (mesh 4 4) →
          mapFind (markFaulty (mesh 4 4) mainState 1 0).core_status c = some CORE_HEALTHY →
          cost (mesh 4 4) (markFaulty (mesh 4 4) mainState 1 0) task 12
              ≤ cost (mesh 4 4) (markFaulty (mesh 4 4) mainState 1 0) task c ∧
            (c < 12 → cost (mesh 4 4) (markFaulty (mesh 4 4) mainState 1 0) task 12
              < cost (mesh 4 4) (markFaulty (mesh 4 4) mainState 1 0) task c) :=
  ⟨Reachable.initialMapping mainTasks Reachable.create, by decide, by decide, by decide,
    relocation_picks_cheapest (mesh 4 4) mainState
      (Reachable.initialMapping mainTasks Reachable.create) 1 0 1 12
      (by decide) (by decide) (by decide)⟩

/-- C3. At the failing input the displaced task is not relocated although a
healthy core exists: on a 3 x 1 mesh with `heavyTasks` placed on cores 0 and 1,
core 2 is `CORE_HEALTHY`, yet after `injectFault(0, 0)` task 0 is still assigned
to core 0, now `CORE_FAULTY`, and core 2 is still `CORE_HEALTHY`: its energy
`1000000000` is not below the initial `min_energy`. -/
theorem relocation_skipped_at_sentinel (d : CoreStatus) :
    getTaskLocation
        (initialMapping ⟨3, 1, d⟩ (NoximManagerCore.create ⟨3, 1, d⟩) heavyTasks) 0 = 0 ∧
      getCoreStatus ⟨3, 1, d⟩
        (initialMapping ⟨3, 1, d⟩ (NoximManagerCore.create ⟨3, 1, d⟩) heavyTasks) 2 0
        = CORE_HEALTHY ∧
      cost ⟨3, 1, d⟩ (markFaulty ⟨3, 1, d⟩
        (initialMapping ⟨3, 1, d⟩ (NoximManagerCore.create ⟨3, 1, d⟩) heavyTasks) 0 0)
        ⟨0, 1000, [(1, 1000000000)]⟩ 2 = minEnergyInit ∧
      getTaskLocation (injectFault ⟨3, 1, d⟩
        (initialMapping ⟨3, 1, d⟩ (NoximManagerCore.create ⟨3, 1, d⟩) heavyTasks) 0 0) 0 = 0 ∧
      getCoreStatus ⟨3, 1, d⟩ (injectFault ⟨3, 1, d⟩
        (initialMapping ⟨3, 1, d⟩ (NoximManagerCore.create ⟨3, 1, d⟩) heavyTasks) 0 0) 0 0
        = CORE_FAULTY ∧
      getCoreStatus ⟨3, 1, d⟩ (injectFault ⟨3, 1, d⟩
        (initialMapping ⟨3, 1, d⟩ (NoximManagerCore.create ⟨3, 1, d⟩) heavyTasks) 0 0) 2 0
        = CORE_HEALTHY := by
  cases d <;> decide

/-- C4. Initial placement is injective and starts at the lowest core: on a
freshly constructed manager, for a task list with distinct ids and no more tasks
than cores, after `initialMapping` every task has an entry, tasks at different
positions are on different cores, and the first task is on core 0. -/
theorem initialMapping_injective (P : GlobalParams) (tasks : List Task)
    (hnd : (tasks.map Task.task_id).Nodup)
    (hlen : (tasks.length : Int) ≤ P.mesh_dim_x * P.mesh_dim_y) :
    (∀ t ∈ tasks, (mapFind
        (initialMapping P (NoximManagerCore.create P) tasks).task_map t.task_id).isSome) ∧
      (∀ (i j : Nat) (hi : i < tasks.length) (hj : j < tasks.length), i ≠ j →
        getTaskLocation (initialMapping P (NoximManagerCore.create P) tasks)
            (tasks.get ⟨i, hi⟩).task_id
          ≠ getTaskLocation (initialMapping P (NoximManagerCore.create P) tasks)
            (tasks.get ⟨j, hj⟩).task_id) ∧
      (∀ t, tasks.head? = some t →
        getTaskLocation (initialMapping P (NoximManagerCore.create P) tasks) t.task_id = 0) := by
  have key : ∀ (j : Nat) (hj : j < tasks.length),
      mapFind (initialMapping P (NoximManagerCore.create P) tasks).task_map
        (tasks.get ⟨j, hj⟩).task_id = some (j : Int) := by
    intro j hj
    have := mapTasks_healthy P tasks 0 (NoximManagerCore.create P).task_map
      (NoximManagerCore.create P).core_status (by unfold totalCores; omega)
      (fun i h0 h1 => by
        rw [mapFind_create]
        have : 0 ≤ i ∧ i < totalCores P := by unfold totalCores; omega
        simp [this]) hnd j hj
    simpa [initialMapping] using this
  refine ⟨?_, ?_, ?_⟩
  · intro t ht
    obtain ⟨n, hn⟩ := List.mem_iff_get.1 ht
    rw [← hn, key]
    rfl
  · intro i j hi hj hij
    unfold getTaskLocation
    rw [key i hi, key j hj]
    simp only [ne_eq, Nat.cast_inj]
    exact hij
  · intro t ht
    cases tasks with
    | nil => simp at ht
    | cons t0 rest =>
      simp only [List.head?_cons, Option.some.injEq] at ht
      rw [← ht]
      have h0 : mapFind (initialMapping P (NoximManagerCore.create P) (t0 :: rest)).task_map
          t0.task_id = some 0 := key 0 (by simp)
      unfold getTaskLocation
      rw [h0]

theorem initialMapping_injective_witness :
    (mainTasks.map Task.task_id).Nodup ∧
      (mainTasks.length : Int) ≤ (mesh 4 4).mesh_dim_x * (mesh 4 4).mesh_dim_y ∧
      ((∀ t ∈ mainTasks, (mapFind (initialMapping (mesh 4 4)
          (NoximManagerCore.create (mesh 4 4)) mainTasks).task_map t.task_id).isSome) ∧
        (∀ (i j : Nat) (hi : i < mainTasks.length) (hj : j < mainTasks.length), i ≠ j →
          getTaskLocation (initialMapping (mesh 4 4) (NoximManagerCore.create (mesh 4 4))
              mainTasks) (mainTasks.get ⟨i, hi⟩).task_id
            ≠ getTaskLocation (initialMapping (mesh 4 4)
              (NoximManagerCore.create (mesh 4 4)) mainTasks) (mainTasks.get ⟨j, hj⟩).task_id) ∧
        (∀ t, mainTasks.head? = some t →
          getTaskLocation (initialMapping (mesh 4 4) (NoximManagerCore.create (mesh 4 4))
            mainTasks) t.task_id = 0)) :=
  ⟨by decide, by decide, initialMapping_injective (mesh 4 4) mainTasks (by decide) (by decide)⟩

/-- C5, as stated, fails: on a fresh 4 x 4 mesh the pair `(4, 0)` is outside the
mesh (`x >= width`), yet `injectFault(4, 0)` marks core 4, the core at `(0, 1)`,
as `CORE_FAULTY`. -/
theorem injectFault_out_of_mesh_counterexample :
    (4 : Int) ≥ (mesh 4 4).mesh_dim_x ∧
      getCoreStatus (mesh 4 4) (NoximManagerCore.create (mesh 4 4)) 0 1 = CORE_HEALTHY ∧
      getCoreStatus (mesh 4 4)
        (injectFault (mesh 4 4) (NoximManagerCore.create (mesh 4 4)) 4 0) 0 1
        = CORE_FAULTY := by
  decide

/-- C5, amended. Fault coordinates whose core id is outside the mesh are a
no-op for the mesh: in every reachable state and for every `(x, y)` whose core
id `y * width + x` lies outside `[0, width * height)`, `injectFault(x, y)` leaves
the whole assignment table and the status of every mesh core unchanged. -/
theorem injectFault_outside_mesh (P : GlobalParams) (s : NoximManagerCore)
    (hs : Reachable P s) (x y : Int)
    (hout : y * P.mesh_dim_x + x < 0 ∨ totalCores P ≤ y * P.mesh_dim_x + x) :
    (injectFault P s x y).task_map = s.task_map ∧
      (∀ i, 0 ≤ i → i < totalCores P →
        mapFind (injectFault P s x y).core_status i = mapFind s.core_status i) ∧
      (∀ x' y', 0 ≤ y' * P.mesh_dim_x + x' → y' * P.mesh_dim_x + x' < totalCores P →
        getCoreStatus P (injectFault P s x y) x' y' = getCoreStatus P s x' y') := by
  have h := reachable_inv hs
  have hfree : ∀ p ∈ (markFaulty P s x y).task_map, p.2 ≠ y * P.mesh_dim_x + x := by
    intro p hp e
    have hp' : (p.1, p.2) ∈ s.task_map := hp
    have hf := mapFind_of_mem _ _ _ h.tm_sorted hp'
    have hr := h.placed _ _ hf
    omega
  have key : (injectFault P s x y).task_map = s.task_map ∧
      ∀ i, 0 ≤ i → i < totalCores P →
        mapFind (injectFault P s x y).core_status i = mapFind s.core_status i := by
    unfold injectFault
    simp only
    split_ifs
    · rw [handleFault_of_none P (markFaulty P s x y) x y (taskOnCore_none _ _ hfree)]
      refine ⟨rfl, ?_⟩
      intro i h0 h1
      show mapFind (mapSet _ _ _) i = _
      rw [mapFind_mapSet_ne]
      omega
    · exact ⟨rfl, fun _ _ _ => rfl⟩
  refine ⟨key.1, key.2, ?_⟩
  intro x' y' h0 h1
  unfold getCoreStatus
  simp only
  rw [key.2 _ h0 h1]

theorem injectFault_outside_mesh_witness :
    Reachable (mesh 1 1)
        (initialMapping (mesh 1 1)
          (injectFault (mesh 1 1) (NoximManagerCore.create (mesh 1 1)) 0 0)
          [⟨0, 1000, []⟩]) ∧
      ((0 : Int) * (mesh 1 1).mesh_dim_x + 1 < 0 ∨
        totalCores (mesh 1 1) ≤ 0 * (mesh 1 1).mesh_dim_x + 1) ∧
      ((injectFault (mesh 1 1) (initialMapping (mesh 1 1)
          (injectFault (mesh 1 1) (NoximManagerCore.create (mesh 1 1)) 0 0)
          [⟨0, 1000, []⟩]) 1 0).task_map
          = (initialMapping (mesh 1 1)
            (injectFault (mesh 1 1) (NoximManagerCore.create (mesh 1 1)) 0 0)
            [⟨0, 1000, []⟩]).task_map ∧
        (∀ i, 0 ≤ i → i < totalCores (mesh 1 1) →
          mapFind (injectFault (mesh 1 1) (initialMapping (mesh 1 1)
            (injectFault (mesh 1 1) (NoximManagerCore.create (mesh 1 1)) 0 0)
            [⟨0, 1000, []⟩]) 1 0).core_status i
            = mapFind (initialMapping (mesh 1 1)
              (injectFault (mesh 1 1) (NoximManagerCore.create (mesh 1 1)) 0 0)
              [⟨0, 1000, []⟩]).core_status i) ∧
        (∀ x' y', 0 ≤ y' * (mesh 1 1).mesh_dim_x + x' →
          y' * (mesh 1 1).mesh_dim_x + x' < totalCores (mesh 1 1) →
          getCoreStatus (mesh 1 1) (injectFault (mesh 1 1) (initialMapping (mesh 1 1)
            (injectFault (mesh 1 1) (NoximManagerCore.create (mesh 1 1)) 0 0)
            [⟨0, 1000, []⟩]) 1 0) x' y'
            = getCoreStatus (mesh 1 1) (initialMapping (mesh 1 1)
              (injectFault (mesh 1 1) (NoximManagerCore.create (mesh 1 1)) 0 0)
              [⟨0, 1000, []⟩]) x' y')) :=
  ⟨Reachable.initialMapping _ (Reachable.injectFault 0 0 Reachable.create), by decide,
    injectFault_outside_mesh (mesh 1 1) _
      (Reachable.initialMapping _ (Reachable.injectFault 0 0 Reachable.create)) 1 0
      (by decide)⟩

/-- C6. At the failing input the status query does not answer `CORE_FAULTY` for
an id outside the mesh: on a 1 x 1 mesh, after `injectFault(0, 0)` and an
`initialMapping` of one task, the id of `(1, 0)` is `1`, outside `[0, 1)`, and
`getCoreStatus(1, 0)` returns the value-initialised status that the scan of
`initialMapping` entered for key 1, whatever that status is. -/
theorem getCoreStatus_after_overrun (d : CoreStatus) :
    Reachable ⟨1, 1, d⟩
        (initialMapping ⟨1, 1, d⟩
          (injectFault ⟨1, 1, d⟩ (NoximManagerCore.create ⟨1, 1, d⟩) 0 0) [⟨0, 1000, []⟩]) ∧
      ¬ ((0 : Int) * 1 + 1 < totalCores ⟨1, 1, d⟩) ∧
      getCoreStatus ⟨1, 1, d⟩
        (initialMapping ⟨1, 1, d⟩
          (injectFault ⟨1, 1, d⟩ (NoximManagerCore.create ⟨1, 1, d⟩) 0 0) [⟨0, 1000, []⟩])
        1 0 = d := by
  refine ⟨Reachable.initialMapping _ (Reachable.injectFault 0 0 Reachable.create), ?_, ?_⟩
  · show ¬ ((0 : Int) * 1 + 1 < 1 * 1)
    decide
  · cases d <;> decide

/-- C7. `CORE_FAULTY` is terminal: from every state and through every sequence
of `initialMapping` and `injectFault` calls, a core stored as `CORE_FAULTY` is
still stored as `CORE_FAULTY` afterwards, and every task located on it
afterwards was located on it before: no call makes it the location of a task. -/
theorem faulty_is_terminal (P : GlobalParams) (s : NoximManagerCore) (calls : List Call)
    (c : Int) (h : mapFind s.core_status c = some CORE_FAULTY) :
    mapFind (run P s calls).core_status c = some CORE_FAULTY ∧
      ∀ t, mapFind (run P s calls).task_map t = some c → mapFind s.task_map t = some c := by
  induction calls generalizing s with
  | nil => exact ⟨h, fun _ ht => ht⟩
  | cons call rest ih =>
    obtain ⟨h1, h2⟩ := step_faulty P s call c h
    obtain ⟨h3, h4⟩ := ih (step P s call) h1
    exact ⟨h3, fun t ht => h2 t (h4 t ht)⟩

theorem faulty_is_terminal_witness :
    mapFind (injectFault (mesh 4 4) mainState 0 0).core_status 0 = some CORE_FAULTY ∧
      (mapFind (run (mesh 4 4) (injectFault (mesh 4 4) mainState 0 0)
          [Call.initialMapping mainTasks, Call.injectFault 1 0]).core_status 0
          = some CORE_FAULTY ∧
        ∀ t, mapFind (run (mesh 4 4) (injectFault (mesh 4 4) mainState 0 0)
            [Call.initialMapping mainTasks, Call.injectFault 1 0]).task_map t = some 0 →
          mapFind (injectFault (mesh 4 4) mainState 0 0).task_map t = some 0) :=
  ⟨by decide, faulty_is_terminal (mesh 4 4) (injectFault (mesh 4 4) mainState 0 0)
    [Call.initialMapping mainTasks, Call.injectFault 1 0] 0 (by decide)⟩

/-- C8. A fault on an unoccupied core does not touch placement: in every state,
when no entry of the assignment table points at core `y * width + x`, the table
after `injectFault(x, y)` is the table before it. -/
theorem injectFault_unoccupied (P : GlobalParams) (s : NoximManagerCore) (x y : Int)
    (h : ∀ p ∈ s.task_map, p.2 ≠ y * P.mesh_dim_x + x) :
    (injectFault P s x y).task_map = s.task_map := by
  unfold injectFault
  simp only
  split_ifs
  · rw [handleFault_of_none P (markFaulty P s x y) x y (taskOnCore_none _ _ h)]
    rfl
  · rfl

theorem injectFault_unoccupied_witness :
    (∀ p ∈ mainState.task_map, p.2 ≠ 3 * (mesh 4 4).mesh_dim_x + 3) ∧
      (injectFault (mesh 4 4) mainState 3 3).task_map = mainState.task_map :=
  ⟨by decide, injectFault_unoccupied (mesh 4 4) mainState 3 3 (by decide)⟩

/-- C9. Degraded state when no spare exists: in every state where task `t` is
assigned to core `c = y * width + x` and, once `c` is marked faulty, every mesh
core has a stored status other than `CORE_HEALTHY`, `injectFault(x, y)` leaves
the assignment table unchanged, `getTaskLocation(t)` still returns `c`, and the
status of `c` is `CORE_FAULTY` (stored as such when `c` is a registered core). -/
theorem injectFault_no_spare (P : GlobalParams) (s : NoximManagerCore) (x y t : Int)
    (ht : mapFind s.task_map t = some (y * P.mesh_dim_x + x))
    (hnone : ∀ i, 0 ≤ i → i < totalCores P →
      ∃ st, mapFind (markFaulty P s x y).core_status i = some st ∧ st ≠ CORE_HEALTHY) :
    (injectFault P s x y).task_map = s.task_map ∧
      getTaskLocation (injectFault P s x y) t = y * P.mesh_dim_x + x ∧
      getCoreStatus P (injectFault P s x y) x y = CORE_FAULTY ∧
      ((mapFind s.core_status (y * P.mesh_dim_x + x)).isSome →
        mapFind (injectFault P s x y).core_status (y * P.mesh_dim_x + x)
          = some CORE_FAULTY) := by
  have hbest : ∀ task_id, findBestSpareCore P (markFaulty P s x y) task_id
      = (-1, (markFaulty P s x y).core_status) := by
    intro task_id
    unfold findBestSpareCore
    split
    · rfl
    · exact spareLoop_no_healthy _ _ _ _ _ _ _
        (fun i hi => hnone i ((mem_coreIds P i).1 hi).1 ((mem_coreIds P i).1 hi).2)
  have hloc : ∀ s' : NoximManagerCore, s'.task_map = s.task_map →
      getTaskLocation s' t = y * P.mesh_dim_x + x := by
    intro s' e
    unfold getTaskLocation
    rw [e, ht]
  by_cases hreg : (mapFind s.core_status (y * P.mesh_dim_x + x)).isSome
  · have e : injectFault P s x y = markFaulty P s x y := by
      unfold injectFault
      simp only [hreg, if_true]
      unfold handleFault
      simp only [hbest]
      split_ifs <;> first | rfl | (exfalso; omega)
    have hf : mapFind (markFaulty P s x y).core_status (y * P.mesh_dim_x + x)
        = some CORE_FAULTY := mapFind_mapSet_self _ _ _
    rw [e]
    refine ⟨rfl, hloc _ rfl, ?_, fun _ => hf⟩
    unfold getCoreStatus
    simp only [hf]
  · have e : injectFault P s x y = s := by
      unfold injectFault; simp only [hreg]; rfl
    rw [e]
    refine ⟨rfl, hloc _ rfl, ?_, fun h => absurd h hreg⟩
    unfold getCoreStatus
    have hn : mapFind s.core_status (y * P.mesh_dim_x + x) = none := by
      cases hm : mapFind s.core_status (y * P.mesh_dim_x + x) with
      | none => rfl
      | some v => rw [hm] at hreg; exact absurd rfl hreg
    simp only [hn]

theorem injectFault_no_spare_witness :
    mapFind (initialMapping (mesh 2 1) (NoximManagerCore.create (mesh 2 1))
        mainTasks).task_map 0 = some (0 * (mesh 2 1).mesh_dim_x + 0) ∧
      (∀ i, 0 ≤ i → i < totalCores (mesh 2 1) →
        ∃ st, mapFind (markFaulty (mesh 2 1) (initialMapping (mesh 2 1)
          (NoximManagerCore.create (mesh 2 1)) mainTasks) 0 0).core_status i = some st ∧
          st ≠ CORE_HEALTHY) ∧
      ((injectFault (mesh 2 1) (initialMapping (mesh 2 1)
          (NoximManagerCore.create (mesh 2 1)) mainTasks) 0 0).task_map
          = (initialMapping (mesh 2 1) (NoximManagerCore.create (mesh 2 1))
            mainTasks).task_map ∧
        getTaskLocation (injectFault (mesh 2 1) (initialMapping (mesh 2 1)
          (NoximManagerCore.create (mesh 2 1)) mainTasks) 0 0) 0
          = 0 * (mesh 2 1).mesh_dim_x + 0 ∧
        getCoreStatus (mesh 2 1) (injectFault (mesh 2 1) (initialMapping (mesh 2 1)
          (NoximManagerCore.create (mesh 2 1)) mainTasks) 0 0) 0 0 = CORE_FAULTY ∧
        ((mapFind (initialMapping (mesh 2 1) (NoximManagerCore.create (mesh 2 1))
            mainTasks).core_status (0 * (mesh 2 1).mesh_dim_x + 0)).isSome →
          mapFind (injectFault (mesh 2 1) (initialMapping (mesh 2 1)
            (NoximManagerCore.create (mesh 2 1)) mainTasks) 0 0).core_status
            (0 * (mesh 2 1).mesh_dim_x + 0) = some CORE_FAULTY)) :=
  ⟨by decide,
    fun i h0 h1 => by
      have h2 : i < 2 := h1
      have hi : i = 0 ∨ i = 1 := by omega
      rcases hi with e | e <;> subst e <;> decide,
    injectFault_no_spare (mesh 2 1)
      (initialMapping (mesh 2 1) (NoximManagerCore.create (mesh 2 1)) mainTasks) 0 0 0
      (by decide)
      (fun i h0 h1 => by
        have h2 : i < 2 := h1
        have hi : i = 0 ∨ i = 1 := by omega
        rcases hi with e | e <;> subst e <;> decide)⟩

theorem tdiv_tmod_nonneg (a w : Int) (ha : 0 ≤ a) (hw : 1 ≤ w) :
    a.tmod w = a % w ∧ a.tdiv w = a / w :=
  ⟨Int.tmod_eq_emod ha (by omega), Int.tdiv_eq_ediv ha (by omega)⟩

/-- C10. `getManhattanDistance` is a metric on mesh cores: for a mesh of width
at least 1 and core ids `a`, `b`, `c` of the mesh, the distance is symmetric, is
zero exactly when the ids are equal, satisfies the triangle inequality, and is
`|x_a - x_b| + |y_a - y_b|` for `x = id mod width`, `y = id div width`. -/
theorem getManhattanDistance_metric (P : GlobalParams) (hW : 1 ≤ P.mesh_dim_x)
    (a b c : Int) (ha : 0 ≤ a ∧ a < totalCores P) (hb : 0 ≤ b ∧ b < totalCores P)
    (hc : 0 ≤ c ∧ c < totalCores P) :
    getManhattanDistance P a b = getManhattanDistance P b a ∧
      (getManhattanDistance P a b = 0 ↔ a = b) ∧
      getManhattanDistance P a c ≤ getManhattanDistance P a b + getManhattanDistance P b c ∧
      getManhattanDistance P a b
        = |a % P.mesh_dim_x - b % P.mesh_dim_x| + |a / P.mesh_dim_x - b / P.mesh_dim_x| := by
  obtain ⟨am, ad⟩ := tdiv_tmod_nonneg a P.mesh_dim_x ha.1 hW
  obtain ⟨bm, bd⟩ := tdiv_tmod_nonneg b P.mesh_dim_x hb.1 hW
  obtain ⟨cm, cd⟩ := tdiv_tmod_nonneg c P.mesh_dim_x hc.1 hW
  unfold getManhattanDistance
  simp only [am, ad, bm, bd, cm, cd]
  have ea := Int.ediv_add_emod a P.mesh_dim_x
  have eb := Int.ediv_add_emod b P.mesh_dim_x
  refine ⟨by omega, ?_, by omega, ?_⟩
  · constructor
    · intro h0
      have h1 : a % P.mesh_dim_x = b % P.mesh_dim_x := by omega
      have h2 : a / P.mesh_dim_x = b / P.mesh_dim_x := by omega
      rw [← ea, ← eb, h1, h2]
    · intro e
      subst e
      simp
  · rw [Int.natCast_natAbs, Int.natCast_natAbs]

theorem getManhattanDistance_metric_witness :
    (1 : Int) ≤ (mesh 4 4).mesh_dim_x ∧
      ((0 : Int) ≤ 0 ∧ (0 : Int) < totalCores (mesh 4 4)) ∧
      ((0 : Int) ≤ 5 ∧ (5 : Int) < totalCores (mesh 4 4)) ∧
      ((0 : Int) ≤ 15 ∧ (15 : Int) < totalCores (mesh 4 4)) ∧
      (getManhattanDistance (mesh 4 4) 0 5 = getManhattanDistance (mesh 4 4) 5 0 ∧
        (getManhattanDistance (mesh 4 4) 0 5 = 0 ↔ (0 : Int) = 5) ∧
        getManhattanDistance (mesh 4 4) 0 15
          ≤ getManhattanDistance (mesh 4 4) 0 5 + getManhattanDistance (mesh 4 4) 5 15 ∧
        getManhattanDistance (mesh 4 4) 0 5
          = |(0 : Int) % (mesh 4 4).mesh_dim_x - 5 % (mesh 4 4).mesh_dim_x|
            + |(0 : Int) / (mesh 4 4).mesh_dim_x - 5 / (mesh 4 4).mesh_dim_x|) :=
  ⟨by decide, by decide, by decide, by decide,
    getManhattanDistance_metric (mesh 4 4) (by decide) 0 5 15 (by decide) (by decide)
      (by decide)⟩

/-! ## The cost function -/

/-- Under the registration of every assigned core, the energy loop adds the
contributions the spec names and only reads the registry. -/
theorem energyLoop_eq_sum (P : GlobalParams) (tm : List (Int × Int)) (core_id : Int)
    (ps : List (Int × Int)) (energy : Int) (cs : List (Int × CoreStatus))
    (h : ∀ t c, mapFind tm t = some c → (mapFind cs c).isSome) :
    (energyLoop P tm core_id ps energy cs).1 =
      energy + (ps.map fun pv =>
        match mapFind tm pv.1 with
        | some partner_core =>
          if specStatus cs partner_core ≠ CORE_FAULTY then
            pv.2 * getManhattanDistance P core_id partner_core
          else 0
        | none => 0).sum := by
  induction ps generalizing energy with
  | nil => simp [energyLoop]
  | cons p ps ih =>
    obtain ⟨partner_id, volume⟩ := p
    simp only [energyLoop, List.map_cons, List.sum_cons]
    cases hc : mapFind tm partner_id with
    | none =>
      simp only
      rw [ih]
      omega
    | some c =>
      obtain ⟨v, hv⟩ := Option.isSome_iff_exists.1 (h _ _ hc)
      have hspec : specStatus cs c = v := by simp only [specStatus, hv]
      simp only [mapIndex_of_some _ _ _ _ hv, hspec]
      split_ifs
      · rw [ih]; omega
      · rw [ih]; omega

/-- A task none of whose partners is assigned costs nothing, and computing its
cost does not touch the registry. -/
theorem energyLoop_isolated (P : GlobalParams) (tm : List (Int × Int)) (core_id : Int)
    (ps : List (Int × Int)) (energy : Int) (cs : List (Int × CoreStatus))
    (h : ∀ pv ∈ ps, mapFind tm pv.1 = none) :
    energyLoop P tm core_id ps energy cs = (energy, cs) := by
  induction ps generalizing energy with
  | nil => rfl
  | cons p ps ih =>
    obtain ⟨partner_id, volume⟩ := p
    have h0 : mapFind tm partner_id = none := h (partner_id, volume) (List.mem_cons_self _ _)
    simp only [energyLoop, h0]
    exact ih _ (fun pv hpv => h pv (List.mem_cons_of_mem _ hpv))

/-- In a reachable state every assigned core is registered. -/
theorem inv_registered {P : GlobalParams} {s : NoximManagerCore} (h : Inv P s) :
    ∀ t c, mapFind s.task_map t = some c → (mapFind s.core_status c).isSome := by
  intro t c htc
  obtain ⟨h0, h1, _⟩ := h.placed t c htc
  exact h.cores c h0 h1

/-- C11. Cost equals its reference definition: in every reachable manager
state, for every task and candidate core, `calculateTaskEnergyOnCore(task,
candidate)` is the sum, over the partner entries whose partner has an
assignment on a core that is not `FAULTY`, of `volume *
manhattanDistance(candidate, assigned core)`; the other partners contribute
zero. -/
theorem cost_eq_costSpec (P : GlobalParams) (s : NoximManagerCore) (hs : Reachable P s)
    (task : Task) (candidate_core : Int) :
    (calculateTaskEnergyOnCore P s.task_map s.core_status task candidate_core).1
      = costSpec P s task candidate_core := by
  unfold calculateTaskEnergyOnCore costSpec
  rw [energyLoop_eq_sum P s.task_map candidate_core task.communication_partners 0
    s.core_status (inv_registered (reachable_inv hs))]
  omega

theorem cost_eq_costSpec_witness :
    Reachable (mesh 4 4) mainState ∧
      (calculateTaskEnergyOnCore (mesh 4 4) mainState.task_map mainState.core_status
        ⟨1, 1000, [(0, 100)]⟩ 12).1
        = costSpec (mesh 4 4) mainState ⟨1, 1000, [(0, 100)]⟩ 12 :=
  ⟨Reachable.initialMapping mainTasks Reachable.create,
    cost_eq_costSpec (mesh 4 4) mainState
      (Reachable.initialMapping mainTasks Reachable.create) ⟨1, 1000, [(0, 100)]⟩ 12⟩

/-- C12. The cost of an isolated task is zero: in every state, for a task none
of whose communication partners has an entry in the assignment table (a task
without partners included) and for every candidate core,
`calculateTaskEnergyOnCore(task, candidate)` returns exactly 0, and the call
leaves the registry as it was. -/
theorem cost_isolated_zero (P : GlobalParams) (s : NoximManagerCore) (task : Task)
    (candidate_core : Int)
    (h : ∀ pv ∈ task.communication_partners, mapFind s.task_map pv.1 = none) :
    (calculateTaskEnergyOnCore P s.task_map s.core_status task candidate_core).1 = 0 ∧
      (calculateTaskEnergyOnCore P s.task_map s.core_status task candidate_core).2
        = s.core_status := by
  unfold calculateTaskEnergyOnCore
  rw [energyLoop_isolated P s.task_map candidate_core task.communication_partners 0
    s.core_status h]
  exact ⟨rfl, rfl⟩

theorem cost_isolated_zero_witness :
    (∀ pv ∈ (⟨20, 1000, [(21, 100), (22, 7)]⟩ : Task).communication_partners,
        mapFind mainState.task_map pv.1 = none) ∧
      ((calculateTaskEnergyOnCore (mesh 4 4) mainState.task_map mainState.core_status
          ⟨20, 1000, [(21, 100), (22, 7)]⟩ 5).1 = 0 ∧
        (calculateTaskEnergyOnCore (mesh 4 4) mainState.task_map mainState.core_status
          ⟨20, 1000, [(21, 100), (22, 7)]⟩ 5).2 = mainState.core_status) :=
  ⟨by decide, cost_isolated_zero (mesh 4 4) mainState ⟨20, 1000, [(21, 100), (22, 7)]⟩ 5
    (by decide)⟩

/-- C13. The reference scenario: on a 4 x 4 mesh, `initialMapping` of the ten
chained tasks (task `i` and task `i - 1` declaring each other with volume 100)
places task `i` on core `i` for `i` in 0..9; once core 0 is marked faulty the
available cores are 10..15, and the cost of task 0 on each of them is
`100 * manhattanDistance(candidate, core 1)`; `injectFault(0, 0)` moves task 0
to core 10, the first of least such cost among them; every other task keeps its
core.  The task list of `sc_main`, in which
only task `i` declares task `i - 1`, gives the same placement and the same
destination. -/
theorem reference_scenario :
    (∀ i ∈ List.range 10,
        getTaskLocation (initialMapping (mesh 4 4) (NoximManagerCore.create (mesh 4 4))
          chainTasks) (i : Int) = (i : Int)) ∧
      availableCores (mesh 4 4) (markFaulty (mesh 4 4) (initialMapping (mesh 4 4)
        (NoximManagerCore.create (mesh 4 4)) chainTasks) 0 0).core_status
        = [10, 11, 12, 13, 14, 15] ∧
      lookupTask chainTasks 0 = some ⟨0, 1000, [(1, 100)]⟩ ∧
      (∀ c ∈ [(10 : Int), 11, 12, 13, 14, 15],
        cost (mesh 4 4) (markFaulty (mesh 4 4) (initialMapping (mesh 4 4)
            (NoximManagerCore.create (mesh 4 4)) chainTasks) 0 0)
            ⟨0, 1000, [(1, 100)]⟩ c
          = 100 * getManhattanDistance (mesh 4 4) c 1 ∧
        100 * getManhattanDistance (mesh 4 4) 10 1
          ≤ 100 * getManhattanDistance (mesh 4 4) c 1) ∧
      getTaskLocation (injectFault (mesh 4 4) (initialMapping (mesh 4 4)
        (NoximManagerCore.create (mesh 4 4)) chainTasks) 0 0) 0 = 10 ∧
      (∀ i ∈ List.range 10, i ≠ 0 →
        getTaskLocation (injectFault (mesh 4 4) (initialMapping (mesh 4 4)
          (NoximManagerCore.create (mesh 4 4)) chainTasks) 0 0) (i : Int) = (i : Int)) ∧
      (∀ i ∈ List.range 10, getTaskLocation mainState (i : Int) = (i : Int)) ∧
      getTaskLocation (injectFault (mesh 4 4) mainState 0 0) 0 = 10 ∧
      (∀ i ∈ List.range 10, i ≠ 0 →
        getTaskLocation (injectFault (mesh 4 4) mainState 0 0) (i : Int) = (i : Int)) := by
  refine ⟨by decide, by decide, by decide, by decide, by decide, by decide, by decide,
    by decide, by decide⟩

/-- C16. The uniqueness invariant of the assignment table: in every reachable
state each task has at most one entry, hence at most one assigned core, and two
distinct tasks are never assigned to the same core, in particular not when
their cores are `CORE_BUSY`. -/
theorem assignment_unique (P : GlobalParams) (s : NoximManagerCore) (hs : Reachable P s) :
    (∀ t c c', (t, c) ∈ s.task_map → (t, c') ∈ s.task_map → c = c') ∧
      (∀ t t' c c', t ≠ t' → mapFind s.task_map t = some c → mapFind s.task_map t' = some c' →
        mapFind s.core_status c = some CORE_BUSY → mapFind s.core_status c' = some CORE_BUSY →
        c ≠ c') ∧
      (∀ t t' c, mapFind s.task_map t = some c → mapFind s.task_map t' = some c → t = t') := by
  have h := reachable_inv hs
  refine ⟨?_, ?_, h.unique⟩
  · intro t c c' h1 h2
    have e1 := mapFind_of_mem _ _ _ h.tm_sorted h1
    have e2 := mapFind_of_mem _ _ _ h.tm_sorted h2
    rw [e1] at e2
    injection e2
  · intro t t' c c' hne h1 h2 _ _ e
    rw [← e] at h2
    exact hne (h.unique _ _ _ h1 h2)

theorem assignment_unique_witness :
    Reachable (mesh 4 4) (injectFault (mesh 4 4) mainState 0 0) ∧
      ((∀ t c c', (t, c) ∈ (injectFault (mesh 4 4) mainState 0 0).task_map →
          (t, c') ∈ (injectFault (mesh 4 4) mainState 0 0).task_map → c = c') ∧
        (∀ t t' c c', t ≠ t' →
          mapFind (injectFault (mesh 4 4) mainState 0 0).task_map t = some c →
          mapFind (injectFault (mesh 4 4) mainState 0 0).task_map t' = some c' →
          mapFind (injectFault (mesh 4 4) mainState 0 0).core_status c = some CORE_BUSY →
          mapFind (injectFault (mesh 4 4) mainState 0 0).core_status c' = some CORE_BUSY →
          c ≠ c') ∧
        (∀ t t' c, mapFind (injectFault (mesh 4 4) mainState 0 0).task_map t = some c →
          mapFind (injectFault (mesh 4 4) mainState 0 0).task_map t' = some c → t = t')) :=
  ⟨Reachable.injectFault 0 0 (Reachable.initialMapping mainTasks Reachable.create),
    assignment_unique (mesh 4 4) (injectFault (mesh 4 4) mainState 0 0)
      (Reachable.injectFault 0 0 (Reachable.initialMapping mainTasks Reachable.create))⟩

/-! ## The snapshot recorder under the invariant -/

/-- The linear id of an in-mesh coordinate pair is a mesh core id. -/
theorem mesh_id_range (P : GlobalParams) (x y : Int) (hx0 : 0 ≤ x) (hx1 : x < P.mesh_dim_x)
    (hy0 : 0 ≤ y) (hy1 : y < P.mesh_dim_y) :
    0 ≤ y * P.mesh_dim_x + x ∧ y * P.mesh_dim_x + x < totalCores P := by
  unfold totalCores
  have hw : 0 ≤ P.mesh_dim_x := by omega
  have h1 : 0 ≤ y * P.mesh_dim_x := mul_nonneg hy0 hw
  have h2 : 0 ≤ (P.mesh_dim_y - 1 - y) * P.mesh_dim_x := mul_nonneg (by omega) hw
  constructor
  · omega
  · nlinarith

theorem mem_range_cast (n : Int) (i : Int) (h : i ∈ (List.range n.toNat).map Int.ofNat) :
    0 ≤ i ∧ i < n := by
  simp only [List.mem_map, List.mem_range] at h
  obtain ⟨k, hk, rfl⟩ := h
  simp only [Int.ofNat_eq_coe]
  omega

theorem getManhattanDistance_comm (P : GlobalParams) (a b : Int) :
    getManhattanDistance P a b = getManhattanDistance P b a := by
  unfold getManhattanDistance
  simp only
  omega

/-- Under the invariant the energy loop of `dumpState` adds the cost of every
task with an assignment and leaves the state alone. -/
theorem totalEnergyLoop_eq {P : GlobalParams} {s : NoximManagerCore} (h : Inv P s)
    (tasks : List Task) (total_energy : Int) :
    totalEnergyLoop P tasks total_energy s =
      (total_energy +
        ((tasks.filter fun task => decide (getTaskLocation s task.task_id ≠ -1)).map
          fun task => cost P s task (getTaskLocation s task.task_id)).sum, s) := by
  induction tasks generalizing total_energy with
  | nil => simp [totalEnergyLoop]
  | cons task rest ih =>
    simp only [totalEnergyLoop]
    by_cases hloc : getTaskLocation s task.task_id = -1
    · simp only [hloc, ne_eq, not_true_eq_false, if_false]
      rw [ih]
      have : (List.filter (fun task => decide (getTaskLocation s task.task_id ≠ -1))
          (task :: rest)) = List.filter
            (fun task => decide (getTaskLocation s task.task_id ≠ -1)) rest := by
        rw [List.filter_cons]
        simp [hloc]
      rw [this]
    · simp only [ne_eq, hloc, not_false_eq_true, if_true]
      have hsnd := calculateTaskEnergyOnCore_snd h task (getTaskLocation s task.task_id)
      have hstate : ({ s with core_status := (calculateTaskEnergyOnCore P s.task_map
          s.core_status task (getTaskLocation s task.task_id)).2 } : NoximManagerCore) = s := by
        rw [hsnd]
      rw [hstate, ih]
      have : (List.filter (fun task => decide (getTaskLocation s task.task_id ≠ -1))
          (task :: rest)) = task :: List.filter
            (fun task => decide (getTaskLocation s task.task_id ≠ -1)) rest := by
        rw [List.filter_cons]
        simp [hloc]
      rw [this]
      simp only [List.map_cons, List.sum_cons, cost]
      congr 1
      omega

theorem coresRow_snd {P : GlobalParams}
    {cs : List (Int × CoreStatus)} (h : ∀ i, 0 ≤ i → i < totalCores P → (mapFind cs i).isSome)
    (tm : List (Int × Int)) (y : Int) (hy0 : 0 ≤ y) (hy1 : y < P.mesh_dim_y)
    (xs : List Int) (hxs : ∀ x ∈ xs, 0 ≤ x ∧ x < P.mesh_dim_x) (out : String) :
    (coresRow P tm y xs out cs).2 = cs := by
  induction xs generalizing out with
  | nil => rfl
  | cons x rest ih =>
    obtain ⟨hx0, hx1⟩ := hxs x (List.mem_cons_self _ _)
    obtain ⟨g0, g1⟩ := mesh_id_range P x y hx0 hx1 hy0 hy1
    obtain ⟨v, hv⟩ := Option.isSome_iff_exists.1 (h _ g0 g1)
    simp only [coresRow, mapIndex_of_some _ _ _ _ hv]
    exact ih (fun x' hx' => hxs x' (List.mem_cons_of_mem _ hx')) _

theorem coresLoop_snd {P : GlobalParams} {cs : List (Int × CoreStatus)}
    (h : ∀ i, 0 ≤ i → i < totalCores P → (mapFind cs i).isSome)
    (tm : List (Int × Int)) (ys : List Int) (hys : ∀ y ∈ ys, 0 ≤ y ∧ y < P.mesh_dim_y)
    (out : String) : (coresLoop P tm ys out cs).2 = cs := by
  induction ys generalizing out with
  | nil => rfl
  | cons y rest ih =>
    obtain ⟨hy0, hy1⟩ := hys y (List.mem_cons_self _ _)
    simp only [coresLoop]
    have e := coresRow_snd h tm y hy0 hy1
      ((List.range P.mesh_dim_x.toNat).map Int.ofNat) (mem_range_cast _) out
    rw [e]
    exact ih (fun y' hy' => hys y' (List.mem_cons_of_mem _ hy')) _

/-- C18. The total energy of a snapshot: in every reachable state the
`total_energy` that `dumpState` computes is the sum, over the tasks of the task
list for which `getTaskLocation` does not return `-1`, of the cost of the task
on its assigned core, and this is the number the snapshot prints; `dumpState`
leaves the registry and the assignment table (the whole state) unchanged; and
when the task list is two tasks on cores that are not `FAULTY`, each declaring
the other with volume `v`, the total is `2 * v * distance`: the relationship is
counted once per declaring task. -/
theorem dumpState_total_energy (P : GlobalParams) (showDouble : Int → String)
    (s : NoximManagerCore) (hs : Reachable P s) (title log : String) :
    totalEnergy P s =
        ((s.all_tasks.filter fun task => decide (getTaskLocation s task.task_id ≠ -1)).map
          fun task => cost P s task (getTaskLocation s task.task_id)).sum ∧
      (dumpState P showDouble s title log).2 =
        log ++ (if log = "" then "[\n" else ",\n") ++
        "  \x7b\n" ++
        "    \"title\": \"" ++ title ++ "\",\n" ++
        "    \"width\": " ++ toString P.mesh_dim_x ++ ",\n" ++
        "    \"height\": " ++ toString P.mesh_dim_y ++ ",\n" ++
        "    \"total_energy\": " ++ showDouble (totalEnergy P s) ++ ",\n" ++
        "    \"cores\": [\n" ++
        (coresLoop P s.task_map ((List.range P.mesh_dim_y.toNat).map Int.ofNat) ""
          s.core_status).1 ++
        "    ]\n" ++
        "  \x7d" ∧
      (dumpState P showDouble s title log).1 = s ∧
      (∀ (a b : Task) (v ca cb : Int), s.all_tasks = [a, b] →
        a.communication_partners = [(b.task_id, v)] →
        b.communication_partners = [(a.task_id, v)] →
        mapFind s.task_map a.task_id = some ca → mapFind s.task_map b.task_id = some cb →
        mapFind s.core_status ca ≠ some CORE_FAULTY →
        mapFind s.core_status cb ≠ some CORE_FAULTY →
        totalEnergy P s = 2 * v * getManhattanDistance P ca cb) := by
  have h := reachable_inv hs
  have hE := totalEnergyLoop_eq h s.all_tasks 0
  have hT : totalEnergy P s =
      ((s.all_tasks.filter fun task => decide (getTaskLocation s task.task_id ≠ -1)).map
        fun task => cost P s task (getTaskLocation s task.task_id)).sum := by
    unfold totalEnergy
    rw [hE]
    simp
  have hC := coresLoop_snd h.cores s.task_map ((List.range P.mesh_dim_y.toNat).map Int.ofNat)
    (mem_range_cast _) ""
  refine ⟨hT, ?_, ?_, ?_⟩
  · unfold dumpState totalEnergy
    simp only [hE]
  · unfold dumpState
    simp only [hE, hC]
  · intro a b v ca cb hall hpa hpb hca hcb hfa hfb
    rw [hT, hall]
    have la : getTaskLocation s a.task_id = ca := by unfold getTaskLocation; rw [hca]
    have lb : getTaskLocation s b.task_id = cb := by unfold getTaskLocation; rw [hcb]
    have na : ca ≠ -1 := by have := (h.placed _ _ hca).1; omega
    have nb : cb ≠ -1 := by have := (h.placed _ _ hcb).1; omega
    have fa : specStatus s.core_status ca ≠ CORE_FAULTY := by
      obtain ⟨w, hw⟩ := Option.isSome_iff_exists.1 (inv_registered h _ _ hca)
      unfold specStatus
      rw [hw] at hfa ⊢
      intro e
      exact hfa (by rw [← e])
    have fb : specStatus s.core_status cb ≠ CORE_FAULTY := by
      obtain ⟨w, hw⟩ := Option.isSome_iff_exists.1 (inv_registered h _ _ hcb)
      unfold specStatus
      rw [hw] at hfb ⊢
      intro e
      exact hfb (by rw [← e])
    have ea : cost P s a ca = v * getManhattanDistance P ca cb := by
      unfold cost calculateTaskEnergyOnCore
      rw [energyLoop_eq_sum P s.task_map ca a.communication_partners 0 s.core_status
        (inv_registered h), hpa]
      simp [hcb, fb]
    have eb : cost P s b cb = v * getManhattanDistance P ca cb := by
      unfold cost calculateTaskEnergyOnCore
      rw [energyLoop_eq_sum P s.task_map cb b.communication_partners 0 s.core_status
        (inv_registered h), hpb]
      simp [hca, fa, getManhattanDistance_comm P cb ca]
    simp only [List.filter_cons, la, lb, ne_eq, na, nb, not_false_eq_true, decide_True,
      if_true, List.filter_nil, List.map_cons, List.map_nil, List.sum_cons, List.sum_nil,
      ea, eb]
    ring

theorem dumpState_total_energy_witness :
    Reachable (mesh 2 1) (initialMapping (mesh 2 1) (NoximManagerCore.create (mesh 2 1))
        pairTasks) ∧
      totalEnergy (mesh 2 1) (initialMapping (mesh 2 1) (NoximManagerCore.create (mesh 2 1))
          pairTasks) =
        (((initialMapping (mesh 2 1) (NoximManagerCore.create (mesh 2 1))
            pairTasks).all_tasks.filter fun task =>
            decide (getTaskLocation (initialMapping (mesh 2 1)
              (NoximManagerCore.create (mesh 2 1)) pairTasks) task.task_id ≠ -1)).map
          fun task => cost (mesh 2 1) (initialMapping (mesh 2 1)
              (NoximManagerCore.create (mesh 2 1)) pairTasks) task
            (getTaskLocation (initialMapping (mesh 2 1)
              (NoximManagerCore.create (mesh 2 1)) pairTasks) task.task_id)).sum ∧
      (dumpState (mesh 2 1) toString (initialMapping (mesh 2 1)
          (NoximManagerCore.create (mesh 2 1)) pairTasks) "Initial Mapping" "").1
        = initialMapping (mesh 2 1) (NoximManagerCore.create (mesh 2 1)) pairTasks ∧
      totalEnergy (mesh 2 1) (initialMapping (mesh 2 1) (NoximManagerCore.create (mesh 2 1))
          pairTasks) = 2 * 50 * getManhattanDistance (mesh 2 1) 0 1 :=
  ⟨Reachable.initialMapping pairTasks Reachable.create,
    (dumpState_total_energy (mesh 2 1) toString _
      (Reachable.initialMapping pairTasks Reachable.create) "Initial Mapping" "").1,
    (dumpState_total_energy (mesh 2 1) toString _
      (Reachable.initialMapping pairTasks Reachable.create) "Initial Mapping" "").2.2.1,
    (dumpState_total_energy (mesh 2 1) toString _
      (Reachable.initialMapping pairTasks Reachable.create) "Initial Mapping" "").2.2.2
      ⟨0, 1000, [(1, 50)]⟩ ⟨1, 1000, [(0, 50)]⟩ 50 0 1 rfl rfl rfl
      (by decide) (by decide) (by decide) (by decide)⟩

/-! ## The frame of a call -/

/-- Under the invariant a fault on a registered core either only marks the
core, or marks it and moves the one task that was on it to a core that was
`CORE_HEALTHY`. -/
theorem injectFault_cases {P : GlobalParams} {s : NoximManagerCore} (h : Inv P s)
    (x y : Int) (hreg : (mapFind s.core_status (y * P.mesh_dim_x + x)).isSome) :
    injectFault P s x y = markFaulty P s x y ∨
      ∃ t d, mapFind s.task_map t = some (y * P.mesh_dim_x + x) ∧
        d ≠ y * P.mesh_dim_x + x ∧ (0 ≤ d ∧ d < totalCores P) ∧
        mapFind s.core_status d = some CORE_HEALTHY ∧
        injectFault P s x y =
          { task_map := mapSet s.task_map t d
            core_status := mapSet (markFaulty P s x y).core_status d CORE_BUSY
            all_tasks := s.all_tasks } := by
  have h1 : Inv P (markFaulty P s x y) := inv_markFaulty h x y
  have hf : mapFind (markFaulty P s x y).core_status (y * P.mesh_dim_x + x)
      = some CORE_FAULTY := mapFind_mapSet_self _ _ _
  have e1 : injectFault P s x y = handleFault P (markFaulty P s x y) x y := by
    unfold injectFault; simp only [hreg, if_true]
  rw [e1, handleFault_eq h1]
  split_ifs with hc
  · right
    obtain ⟨ht, hd⟩ := hc
    obtain ⟨hm, hh⟩ := findBestSpareCore_healthy P (markFaulty P s x y) _ hd
    rw [findBestSpareCore_snd h1] at hh
    have hne : (findBestSpareCore P (markFaulty P s x y)
        (taskOnCore (markFaulty P s x y).task_map (y * P.mesh_dim_x + x))).1
        ≠ y * P.mesh_dim_x + x := by
      intro e
      rw [e, hf] at hh
      cases hh
    have hmem : (taskOnCore s.task_map (y * P.mesh_dim_x + x),
        y * P.mesh_dim_x + x) ∈ s.task_map := by
      rcases taskOnCore_mem s.task_map (y * P.mesh_dim_x + x) with ⟨e, _⟩ | hm'
      · exact absurd e ht
      · exact hm'
    refine ⟨_, _, mapFind_of_mem _ _ _ h.tm_sorted hmem, hne, (mem_coreIds P _).1 hm, ?_, rfl⟩
    have hh2 := hh
    change mapFind (mapSet _ _ _) _ = _ at hh2
    rw [mapFind_mapSet_ne _ _ hne] at hh2
    exact hh2
  · left; rfl

/-- The loop of `initialMapping` changes a stored status only to `CORE_BUSY`. -/
theorem mapTasks_status (P : GlobalParams) (tasks : List Task) (core_idx : Int)
    (tm : List (Int × Int)) (cs : List (Int × CoreStatus)) (i : Int) (v : CoreStatus)
    (h : mapFind cs i = some v) :
    mapFind (mapTasks P tasks core_idx tm cs).2 i = some v ∨
      mapFind (mapTasks P tasks core_idx tm cs).2 i = some CORE_BUSY := by
  induction tasks generalizing core_idx tm cs v with
  | nil => left; exact h
  | cons task rest ih =>
    simp only [mapTasks]
    have hk := skipUnavailable_keep P (totalCores P - core_idx).toNat cs core_idx i v h
    split_ifs with h1 h2
    · left; exact h
    · by_cases e : i = (skipUnavailable P (totalCores P - core_idx).toNat cs core_idx).1
      · right
        have hb : mapFind (mapSet
            (skipUnavailable P (totalCores P - core_idx).toNat cs core_idx).2
            (skipUnavailable P (totalCores P - core_idx).toNat cs core_idx).1 CORE_BUSY) i
            = some CORE_BUSY := by
          rw [e]; exact mapFind_mapSet_self _ _ _
        rcases ih _ _ _ _ hb with r | r
        · exact r
        · exact r
      · apply ih
        rw [mapFind_mapSet_ne _ _ e]
        exact hk
    · exact ih _ _ _ _ hk

/-- A call changes a stored status only to `CORE_BUSY` or `CORE_FAULTY`. -/
theorem step_status (P : GlobalParams) (s : NoximManagerCore) (call : Call) (i : Int)
    (v : CoreStatus) (h : mapFind s.core_status i = some v) :
    mapFind (step P s call).core_status i = some v ∨
      mapFind (step P s call).core_status i = some CORE_BUSY ∨
      mapFind (step P s call).core_status i = some CORE_FAULTY := by
  cases call with
  | initialMapping tasks =>
    rcases mapTasks_status P tasks 0 s.task_map s.core_status i v h with r | r
    · exact Or.inl r
    · exact Or.inr (Or.inl r)
  | injectFault x y =>
    show mapFind (injectFault P s x y).core_status i = some v ∨
      mapFind (injectFault P s x y).core_status i = some CORE_BUSY ∨
      mapFind (injectFault P s x y).core_status i = some CORE_FAULTY
    unfold injectFault
    simp only
    split_ifs with hreg
    · have hm : mapFind (markFaulty P s x y).core_status i = some v ∨
          mapFind (markFaulty P s x y).core_status i = some CORE_FAULTY := by
        show mapFind (mapSet _ _ _) i = _ ∨ mapFind (mapSet _ _ _) i = _
        rw [mapFind_mapSet]
        split_ifs
        · right; rfl
        · left; exact h
      have key : ∀ w, mapFind (markFaulty P s x y).core_status i = some w →
          mapFind (handleFault P (markFaulty P s x y) x y).core_status i = some w ∨
          mapFind (handleFault P (markFaulty P s x y) x y).core_status i
            = some CORE_BUSY := by
        intro w hw
        unfold handleFault
        simp only
        have hk := findBestSpareCore_keep P (markFaulty P s x y)
          (taskOnCore (markFaulty P s x y).task_map (y * P.mesh_dim_x + x)) i w hw
        split_ifs
        · show mapFind (mapSet _ _ _) i = _ ∨ mapFind (mapSet _ _ _) i = _
          rw [mapFind_mapSet]
          split_ifs
          · right; rfl
          · left; exact hk
        · left; exact hk
        · left; exact hw
      rcases hm with hm | hm
      · rcases key v hm with r | r
        · exact Or.inl r
        · exact Or.inr (Or.inl r)
      · rcases key CORE_FAULTY hm with r | r
        · exact Or.inr (Or.inr r)
        · exact Or.inr (Or.inl r)
    · exact Or.inl h

/-- In a reachable state every mesh core is stored as `CORE_HEALTHY`,
`CORE_BUSY` or `CORE_FAULTY`. -/
theorem reachable_status {P : GlobalParams} {s : NoximManagerCore} (hs : Reachable P s)
    (i : Int) (h0 : 0 ≤ i) (h1 : i < totalCores P) :
    mapFind s.core_status i = some CORE_HEALTHY ∨ mapFind s.core_status i = some CORE_BUSY ∨
      mapFind s.core_status i = some CORE_FAULTY := by
  induction hs with
  | create =>
    left
    rw [mapFind_create]
    simp [h0, h1]
  | initialMapping tasks _ ih =>
    rcases ih with r | r | r
    · rcases step_status P _ (Call.initialMapping tasks) i _ r with q | q | q
      · exact Or.inl q
      · exact Or.inr (Or.inl q)
      · exact Or.inr (Or.inr q)
    · rcases step_status P _ (Call.initialMapping tasks) i _ r with q | q | q
      · exact Or.inr (Or.inl q)
      · exact Or.inr (Or.inl q)
      · exact Or.inr (Or.inr q)
    · rcases step_status P _ (Call.initialMapping tasks) i _ r with q | q | q
      · exact Or.inr (Or.inr q)
      · exact Or.inr (Or.inl q)
      · exact Or.inr (Or.inr q)
  | injectFault x y _ ih =>
    rcases ih with r | r | r
    · rcases step_status P _ (Call.injectFault x y) i _ r with q | q | q
      · exact Or.inl q
      · exact Or.inr (Or.inl q)
      · exact Or.inr (Or.inr q)
    · rcases step_status P _ (Call.injectFault x y) i _ r with q | q | q
      · exact Or.inr (Or.inl q)
      · exact Or.inr (Or.inl q)
      · exact Or.inr (Or.inr q)
    · rcases step_status P _ (Call.injectFault x y) i _ r with q | q | q
      · exact Or.inr (Or.inr q)
      · exact Or.inr (Or.inl q)
      · exact Or.inr (Or.inr q)

/-- Under the invariant, a table entry that the loop of `initialMapping` writes
with a new value points at a core that was stored as `CORE_HEALTHY` when the
loop started. -/
theorem mapTasks_new_entry (P : GlobalParams) (tasks : List Task) (core_idx : Int)
    (tm : List (Int × Int)) (cs : List (Int × CoreStatus)) (h0 : 0 ≤ core_idx)
    (h : InvMaps P tm cs) (t c : Int)
    (hnew : mapFind (mapTasks P tasks core_idx tm cs).1 t = some c)
    (hold : mapFind tm t ≠ some c) : mapFind cs c = some CORE_HEALTHY := by
  induction tasks generalizing core_idx tm cs with
  | nil => exact absurd hnew hold
  | cons task rest ih =>
    simp only [mapTasks] at hnew
    have hle := skipUnavailable_le P (totalCores P - core_idx).toNat cs core_idx
    have hkeep : InvMaps P tm (skipUnavailable P (totalCores P - core_idx).toNat cs core_idx).2 :=
      h.keep (skipUnavailable_keysAsc _ _ _ _ h.cs_sorted)
        (fun k v hv => skipUnavailable_keep _ _ _ _ _ _ hv)
    have back : ∀ k, 0 ≤ k → k < totalCores P →
        mapFind (skipUnavailable P (totalCores P - core_idx).toNat cs core_idx).2 k
          = some CORE_HEALTHY → mapFind cs k = some CORE_HEALTHY := by
      intro k k0 k1 hk
      obtain ⟨v, hv⟩ := Option.isSome_iff_exists.1 (h.cores k k0 k1)
      have := skipUnavailable_keep P (totalCores P - core_idx).toNat cs core_idx k v hv
      rw [this] at hk
      rw [hv, hk]
    split_ifs at hnew with h1 h2
    · exact absurd hnew hold
    · have hh := skipUnavailable_healthy P (totalCores P - core_idx).toNat cs core_idx
        (le_refl _) h2
      have hplace := hkeep.place task.task_id _ (by omega) h2 hh
      by_cases hc : mapFind (mapSet tm task.task_id
          (skipUnavailable P (totalCores P - core_idx).toNat cs core_idx).1) t = some c
      · rw [mapFind_mapSet] at hc
        split_ifs at hc with et
        · injection hc with hc
          rw [← hc]
          exact back _ (by omega) h2 hh
        · exact absurd hc hold
      · have r := ih _ _ _ (by omega) hplace hnew hc
        have hne : c ≠ (skipUnavailable P (totalCores P - core_idx).toNat cs core_idx).1 := by
          intro e
          rw [e, mapFind_mapSet_self] at r
          cases r
        rw [mapFind_mapSet_ne _ _ hne] at r
        have hrange := (mapTasks_inv P rest _ _ _ (by omega) hplace).placed t c hnew
        exact back c hrange.1 hrange.2.1 r
    · have r := ih _ _ _ (by omega) hkeep hnew hold
      have hrange := (mapTasks_inv P rest _ _ _ (by omega) hkeep).placed t c hnew
      exact back c hrange.1 hrange.2.1 r

/-- Under the invariant, a table entry that a call writes with a new value
points at a core that was stored as `CORE_HEALTHY` before the call. -/
theorem step_new_entry {P : GlobalParams} {s : NoximManagerCore} (h : Inv P s)
    (call : Call) (t c : Int) (hnew : mapFind (step P s call).task_map t = some c)
    (hold : mapFind s.task_map t ≠ some c) : mapFind s.core_status c = some CORE_HEALTHY := by
  cases call with
  | initialMapping tasks =>
    exact mapTasks_new_entry P tasks 0 s.task_map s.core_status (le_refl _) h t c hnew hold
  | injectFault x y =>
    change mapFind (injectFault P s x y).task_map t = some c at hnew
    by_cases hreg : (mapFind s.core_status (y * P.mesh_dim_x + x)).isSome
    · rcases injectFault_cases h x y hreg with e | ⟨t0, d, ht0, hd, _, hh, e⟩
      · rw [e] at hnew
        exact absurd hnew hold
      · rw [e] at hnew
        change mapFind (mapSet _ _ _) t = _ at hnew
        rw [mapFind_mapSet] at hnew
        split_ifs at hnew with et
        · injection hnew with hnew
          rw [← hnew]
          exact hh
        · exact absurd hnew hold
    · have e1 : injectFault P s x y = s := by
        unfold injectFault; simp only [hreg]; rfl
      rw [e1] at hnew
      exact absurd hnew hold

/-- C20. Occupied cores are never free: in every reachable state every core id
stored in the assignment table is a mesh core id whose status is `CORE_BUSY` or
`CORE_FAULTY`, never `CORE_HEALTHY`; hence the core a call newly assigns to a
task was `CORE_HEALTHY`, hosted no task before the call, and hosts no other
task after it. -/
theorem occupied_never_free (P : GlobalParams) (s : NoximManagerCore) (hs : Reachable P s) :
    (∀ t c, mapFind s.task_map t = some c →
        (0 ≤ c ∧ c < totalCores P) ∧
        (mapFind s.core_status c = some CORE_BUSY ∨
          mapFind s.core_status c = some CORE_FAULTY) ∧
        mapFind s.core_status c ≠ some CORE_HEALTHY) ∧
      (∀ call t c, mapFind (step P s call).task_map t = some c →
        mapFind s.task_map t ≠ some c →
        mapFind s.core_status c = some CORE_HEALTHY ∧
          (∀ t', mapFind s.task_map t' ≠ some c) ∧
          (∀ t', mapFind (step P s call).task_map t' = some c → t' = t)) := by
  have h := reachable_inv hs
  constructor
  · intro t c htc
    obtain ⟨h0, h1, h2⟩ := h.placed t c htc
    refine ⟨⟨h0, h1⟩, ?_, h2⟩
    rcases reachable_status hs c h0 h1 with r | r | r
    · exact absurd r h2
    · exact Or.inl r
    · exact Or.inr r
  · intro call t c hnew hold
    have hh := step_new_entry h call t c hnew hold
    refine ⟨hh, ?_, ?_⟩
    · intro t' ht'
      exact (h.placed t' c ht').2.2 hh
    · intro t' ht'
      have h' : Inv P (step P s call) := by
        cases call with
        | initialMapping tasks => exact inv_initialMapping h tasks
        | injectFault x y => exact inv_injectFault h x y
      exact h'.unique _ _ _ ht' hnew

theorem occupied_never_free_witness :
    Reachable (mesh 4 4) mainState ∧
      ((∀ t c, mapFind mainState.task_map t = some c →
          (0 ≤ c ∧ c < totalCores (mesh 4 4)) ∧
          (mapFind mainState.core_status c = some CORE_BUSY ∨
            mapFind mainState.core_status c = some CORE_FAULTY) ∧
          mapFind mainState.core_status c ≠ some CORE_HEALTHY) ∧
        (∀ call t c, mapFind (step (mesh 4 4) mainState call).task_map t = some c →
          mapFind mainState.task_map t ≠ some c →
          mapFind mainState.core_status c = some CORE_HEALTHY ∧
            (∀ t', mapFind mainState.task_map t' ≠ some c) ∧
            (∀ t', mapFind (step (mesh 4 4) mainState call).task_map t' = some c → t' = t))) :=
  ⟨Reachable.initialMapping mainTasks Reachable.create,
    occupied_never_free (mesh 4 4) mainState
      (Reachable.initialMapping mainTasks Reachable.create)⟩

/-! ## Cores that are not available -/

/-- The loop of `initialMapping` leaves a core alone whose stored status is not
`CORE_HEALTHY`, and does not make it the location of a task. -/
theorem mapTasks_unavailable (P : GlobalParams) (tasks : List Task) (core_idx : Int)
    (tm : List (Int × Int)) (cs : List (Int × CoreStatus)) (c : Int) (st : CoreStatus)
    (hst : st ≠ CORE_HEALTHY) (h : mapFind cs c = some st) :
    mapFind (mapTasks P tasks core_idx tm cs).2 c = some st ∧
      ∀ t, mapFind (mapTasks P tasks core_idx tm cs).1 t = some c → mapFind tm t = some c := by
  induction tasks generalizing core_idx tm cs with
  | nil => exact ⟨h, fun _ ht => ht⟩
  | cons task rest ih =>
    simp only [mapTasks]
    split_ifs with h1 h2
    · exact ⟨h, fun _ ht => ht⟩
    · have hk := skipUnavailable_keep P (totalCores P - core_idx).toNat cs core_idx c _ h
      have hh := skipUnavailable_healthy P (totalCores P - core_idx).toNat cs core_idx
        (le_refl _) h2
      have hne : c ≠ (skipUnavailable P (totalCores P - core_idx).toNat cs core_idx).1 := by
        intro e
        rw [← e, hk] at hh
        injection hh with hh
        exact hst hh
      have hc : mapFind (mapSet (skipUnavailable P (totalCores P - core_idx).toNat cs core_idx).2
          (skipUnavailable P (totalCores P - core_idx).toNat cs core_idx).1 CORE_BUSY) c
          = some st := by
        rw [mapFind_mapSet_ne _ _ hne]; exact hk
      obtain ⟨ih1, ih2⟩ := ih _ _ _ hc
      refine ⟨ih1, ?_⟩
      intro t ht
      have := ih2 t ht
      rw [mapFind_mapSet] at this
      split_ifs at this with e
      · injection this with this
        exact absurd this.symm hne
      · exact this
    · exact ih _ _ _ (skipUnavailable_keep P _ cs core_idx c _ h)

/-! ## Greedy placement over the available cores -/

/-- The cores the loop of `initialMapping` skips are not stored as
`CORE_HEALTHY`. -/
theorem skipUnavailable_skipped (P : GlobalParams) (n : Nat) (cs : List (Int × CoreStatus))
    (core_idx i : Int) (h0 : core_idx ≤ i) (h1 : i < (skipUnavailable P n cs core_idx).1) :
    mapFind cs i ≠ some CORE_HEALTHY := by
  induction n generalizing cs core_idx with
  | zero =>
    simp only [skipUnavailable] at h1
    omega
  | succ n ih =>
    simp only [skipUnavailable] at h1
    split_ifs at h1 with hc
    · by_cases e : i = core_idx
      · intro hh
        rw [e] at hh
        rw [mapIndex_of_some _ _ _ _ hh] at hc
        exact hc.1 rfl
      · intro hh
        exact ih _ _ (by omega) h1 (mapIndex_keep _ _ _ _ _ hh)
    · omega

theorem filter_from_nil (L : List Int) (p : Int → Prop) [DecidablePred p] (idx : Int)
    (h : ∀ i ∈ L, idx ≤ i → ¬ p i) :
    L.filter (fun i => decide (idx ≤ i ∧ p i)) = [] := by
  induction L with
  | nil => rfl
  | cons a L ih =>
    rw [List.filter_cons]
    have d1 : decide (idx ≤ a ∧ p a) = false :=
      decide_eq_false (fun hq => h a (List.mem_cons_self _ _) hq.1 hq.2)
    simp only [d1, Bool.false_eq_true, if_false]
    exact ih (fun i hi => h i (List.mem_cons_of_mem _ hi))

theorem filter_from_cons (L : List Int) (p : Int → Prop) [DecidablePred p] (idx c : Int)
    (hs : L.Pairwise (· < ·)) (hc : c ∈ L) (hidx : idx ≤ c) (hp : p c)
    (h : ∀ i ∈ L, idx ≤ i → i < c → ¬ p i) :
    L.filter (fun i => decide (idx ≤ i ∧ p i))
      = c :: L.filter (fun i => decide (c + 1 ≤ i ∧ p i)) := by
  induction L with
  | nil => simp at hc
  | cons a L ih =>
    rw [List.pairwise_cons] at hs
    obtain ⟨hlt, hs⟩ := hs
    rw [List.filter_cons, List.filter_cons]
    by_cases e : a = c
    · subst e
      have d1 : decide (idx ≤ a ∧ p a) = true := decide_eq_true ⟨hidx, hp⟩
      have d2 : decide (a + 1 ≤ a ∧ p a) = false := decide_eq_false (fun hq => by omega)
      simp only [d1, d2, Bool.false_eq_true, if_true, if_false]
      congr 1
      apply List.filter_congr
      intro i hi
      have := hlt i hi
      have e1 : idx ≤ i := by omega
      have e2 : a + 1 ≤ i := by omega
      simp only [e1, e2, true_and]
    · have hcL : c ∈ L := by
        rcases List.mem_cons.1 hc with r | r
        · exact absurd r.symm e
        · exact r
      have hac : a < c := hlt c hcL
      have d1 : decide (idx ≤ a ∧ p a) = false :=
        decide_eq_false (fun hq => h a (List.mem_cons_self _ _) hq.1 hac hq.2)
      have d2 : decide (c + 1 ≤ a ∧ p a) = false := decide_eq_false (fun hq => by omega)
      simp only [d1, d2, Bool.false_eq_true, if_false]
      exact ih hs hcL (fun i hi => h i (List.mem_cons_of_mem _ hi))

/-- With the cursor at or past the bound the loop of `initialMapping` does
nothing. -/
theorem mapTasks_done (P : GlobalParams) (tasks : List Task) (core_idx : Int)
    (tm : List (Int × Int)) (cs : List (Int × CoreStatus)) (h : core_idx ≥ totalCores P) :
    mapTasks P tasks core_idx tm cs = (tm, cs) := by
  cases tasks with
  | nil => rfl
  | cons task rest => simp only [mapTasks, h, if_true]

/-- When every mesh core is registered, the loop of `initialMapping` gives the
task at position `j` the `j`-th core at or after the cursor that is stored as
`CORE_HEALTHY`, marks that core `CORE_BUSY`, and leaves the entry of a task
alone once those cores are used up. -/
theorem mapTasks_available (P : GlobalParams) (tasks : List Task) (core_idx : Int)
    (tm : List (Int × Int)) (cs : List (Int × CoreStatus)) (h0 : 0 ≤ core_idx)
    (hreg : ∀ i, 0 ≤ i → i < totalCores P → (mapFind cs i).isSome)
    (hnd : (tasks.map Task.task_id).Nodup) (j : Nat) (hj : j < tasks.length) :
    mapFind (mapTasks P tasks core_idx tm cs).1 (tasks.get ⟨j, hj⟩).task_id
        = (match (availableFrom P cs core_idx)[j]? with
          | some c => some c
          | none => mapFind tm (tasks.get ⟨j, hj⟩).task_id) ∧
      ∀ c, (availableFrom P cs core_idx)[j]? = some c →
        mapFind (mapTasks P tasks core_idx tm cs).2 c = some CORE_BUSY := by
  induction tasks generalizing core_idx tm cs j with
  | nil => simp at hj
  | cons task rest ih =>
    simp only [List.map_cons, List.nodup_cons] at hnd
    by_cases hbreak : core_idx ≥ totalCores P
    · have hnil : availableFrom P cs core_idx = [] := by
        unfold availableFrom
        apply filter_from_nil
        intro i hi hle
        have := (mem_coreIds P i).1 hi
        omega
      rw [mapTasks_done P _ _ _ _ hbreak, hnil]
      simp
    · have hle := skipUnavailable_le P (totalCores P - core_idx).toNat cs core_idx
      have hkeep : ∀ k v, mapFind cs k = some v →
          mapFind (skipUnavailable P (totalCores P - core_idx).toNat cs core_idx).2 k
            = some v := fun k v hv => skipUnavailable_keep _ _ _ _ _ _ hv
      have hsame : ∀ k, 0 ≤ k → k < totalCores P →
          mapFind (skipUnavailable P (totalCores P - core_idx).toNat cs core_idx).2 k
            = mapFind cs k := by
        intro k k0 k1
        obtain ⟨v, hv⟩ := Option.isSome_iff_exists.1 (hreg k k0 k1)
        rw [hkeep k v hv, hv]
      by_cases hfound : (skipUnavailable P (totalCores P - core_idx).toNat cs core_idx).1
          < totalCores P
      · have hh := skipUnavailable_healthy P (totalCores P - core_idx).toNat cs core_idx
          (le_refl _) hfound
        rw [hsame _ (by omega) hfound] at hh
        have hreg1 : ∀ i, 0 ≤ i → i < totalCores P →
            (mapFind (mapSet (skipUnavailable P (totalCores P - core_idx).toNat cs
              core_idx).2 (skipUnavailable P (totalCores P - core_idx).toNat cs core_idx).1
              CORE_BUSY) i).isSome := by
          intro i i0 i1
          rw [mapFind_mapSet]
          split_ifs
          · rfl
          · rw [hsame i i0 i1]; exact hreg i i0 i1
        have havail : availableFrom P cs core_idx =
            (skipUnavailable P (totalCores P - core_idx).toNat cs core_idx).1 ::
              availableFrom P (mapSet (skipUnavailable P (totalCores P - core_idx).toNat cs
                core_idx).2 (skipUnavailable P (totalCores P - core_idx).toNat cs core_idx).1
                CORE_BUSY)
                ((skipUnavailable P (totalCores P - core_idx).toNat cs core_idx).1 + 1) := by
          unfold availableFrom
          rw [filter_from_cons (coreIds P) (fun i => mapFind cs i = some CORE_HEALTHY) core_idx
            (skipUnavailable P (totalCores P - core_idx).toNat cs core_idx).1
            (coreIds_sorted P) ((mem_coreIds P _).2 ⟨by omega, hfound⟩) hle hh
            (fun i _ hi0 hi1 => skipUnavailable_skipped P _ cs core_idx i hi0 hi1)]
          congr 1
          apply List.filter_congr
          intro i hi
          have hi' := (mem_coreIds P i).1 hi
          by_cases hge : (skipUnavailable P (totalCores P - core_idx).toNat cs core_idx).1 + 1
              ≤ i
          · have hne : i ≠ (skipUnavailable P (totalCores P - core_idx).toNat cs
                core_idx).1 := by omega
            rw [mapFind_mapSet_ne _ _ hne, hsame i hi'.1 hi'.2]
          · simp only [hge, false_and]
        simp only [mapTasks, hbreak, if_false, hfound, if_true]
        rw [havail]
        cases j with
        | zero =>
          refine ⟨?_, ?_⟩
          · show mapFind _ task.task_id = _
            rw [mapTasks_other _ _ _ _ _ _ hnd.1, mapFind_mapSet_self]
            simp
          · intro c hc
            simp only [List.getElem?_cons_zero, Option.some.injEq] at hc
            rw [← hc]
            exact (mapTasks_unavailable P rest _ _ _ _ CORE_BUSY (by decide)
              (mapFind_mapSet_self _ _ _)).1
        | succ j =>
          have hj2 : j < rest.length := by simpa using hj
          obtain ⟨r1, r2⟩ := ih
            ((skipUnavailable P (totalCores P - core_idx).toNat cs core_idx).1 + 1)
            (mapSet tm task.task_id
              (skipUnavailable P (totalCores P - core_idx).toNat cs core_idx).1)
            (mapSet (skipUnavailable P (totalCores P - core_idx).toNat cs core_idx).2
              (skipUnavailable P (totalCores P - core_idx).toNat cs core_idx).1 CORE_BUSY)
            (by omega) hreg1 hnd.2 j hj2
          refine ⟨?_, ?_⟩
          · show mapFind _ (rest.get ⟨j, hj2⟩).task_id = _
            rw [r1]
            simp only [List.getElem?_cons_succ]
            have hne : (rest.get ⟨j, hj2⟩).task_id ≠ task.task_id := by
              intro e
              apply hnd.1
              rw [← e]
              exact List.mem_map.2 ⟨_, List.get_mem _ _ _, rfl⟩
            rw [mapFind_mapSet_ne _ _ hne]
            rfl
          · intro c hc
            simp only [List.getElem?_cons_succ] at hc
            exact r2 c hc
      · have hnil : availableFrom P cs core_idx = [] := by
          unfold availableFrom
          apply filter_from_nil
          intro i hi hle'
          have := (mem_coreIds P i).1 hi
          exact skipUnavailable_skipped P (totalCores P - core_idx).toNat cs core_idx i hle'
            (by omega)
        simp only [mapTasks, hbreak, if_false, hfound]
        rw [mapTasks_done P _ _ _ _ (by omega), hnil]
        simp

theorem availableFrom_zero (P : GlobalParams) (cs : List (Int × CoreStatus)) :
    availableFrom P cs 0 = availableCores P cs := by
  unfold availableFrom availableCores
  apply List.filter_congr
  intro i hi
  have := (mem_coreIds P i).1 hi
  simp only [this.1, true_and]

/-- C14. Ordered greedy placement and capacity exhaustion: for every state whose
registry holds every mesh core and whose assignment table is empty, and every
task list with distinct ids, after `initialMapping` the entry of the task at
position `j` is the `j`-th available core (mesh core stored as `CORE_HEALTHY`)
in ascending id order when there is one, and that core is then `CORE_BUSY`; a
task at a position from the number of available cores on has no entry, and
`getTaskLocation` returns `-1` for it. -/
theorem initialMapping_greedy (P : GlobalParams) (s : NoximManagerCore) (tasks : List Task)
    (hreg : ∀ i, 0 ≤ i → i < totalCores P → (mapFind s.core_status i).isSome)
    (hempty : s.task_map = [])
    (hnd : (tasks.map Task.task_id).Nodup) (j : Nat) (hj : j < tasks.length) :
    mapFind (initialMapping P s tasks).task_map (tasks.get ⟨j, hj⟩).task_id
        = (availableCores P s.core_status)[j]? ∧
      (∀ c, (availableCores P s.core_status)[j]? = some c →
        mapFind (initialMapping P s tasks).core_status c = some CORE_BUSY) ∧
      ((availableCores P s.core_status).length ≤ j →
        mapFind (initialMapping P s tasks).task_map (tasks.get ⟨j, hj⟩).task_id = none ∧
        getTaskLocation (initialMapping P s tasks) (tasks.get ⟨j, hj⟩).task_id = -1) := by
  obtain ⟨r1, r2⟩ := mapTasks_available P tasks 0 s.task_map s.core_status (le_refl _) hreg
    hnd j hj
  rw [availableFrom_zero, hempty] at r1
  rw [availableFrom_zero] at r2
  have e1 : mapFind (initialMapping P s tasks).task_map (tasks.get ⟨j, hj⟩).task_id
      = (availableCores P s.core_status)[j]? := by
    show mapFind (mapTasks P tasks 0 s.task_map s.core_status).1 _ = _
    rw [hempty, r1]
    cases (availableCores P s.core_status)[j]? with
    | none => rfl
    | some c => rfl
  refine ⟨e1, r2, ?_⟩
  intro hk
  have hnone : (availableCores P s.core_status)[j]? = none := List.getElem?_eq_none hk
  rw [hnone] at e1
  refine ⟨e1, ?_⟩
  unfold getTaskLocation
  rw [e1]

theorem initialMapping_greedy_witness :
    (∀ i, 0 ≤ i → i < totalCores (mesh 2 2) →
        (mapFind (markFaulty (mesh 2 2) (NoximManagerCore.create (mesh 2 2)) 1 0).core_status
          i).isSome) ∧
      (markFaulty (mesh 2 2) (NoximManagerCore.create (mesh 2 2)) 1 0).task_map = [] ∧
      (mainTasks.map Task.task_id).Nodup ∧
      (mapFind (initialMapping (mesh 2 2)
          (markFaulty (mesh 2 2) (NoximManagerCore.create (mesh 2 2)) 1 0) mainTasks).task_map
          (mainTasks.get ⟨2, by decide⟩).task_id
          = (availableCores (mesh 2 2)
            (markFaulty (mesh 2 2) (NoximManagerCore.create (mesh 2 2)) 1 0).core_status)[2]? ∧
        (∀ c, (availableCores (mesh 2 2)
            (markFaulty (mesh 2 2) (NoximManagerCore.create (mesh 2 2)) 1 0).core_status)[2]?
            = some c →
          mapFind (initialMapping (mesh 2 2)
            (markFaulty (mesh 2 2) (NoximManagerCore.create (mesh 2 2)) 1 0)
            mainTasks).core_status c = some CORE_BUSY) ∧
        ((availableCores (mesh 2 2)
            (markFaulty (mesh 2 2) (NoximManagerCore.create (mesh 2 2)) 1 0).core_status).length
            ≤ 2 →
          mapFind (initialMapping (mesh 2 2)
            (markFaulty (mesh 2 2) (NoximManagerCore.create (mesh 2 2)) 1 0)
            mainTasks).task_map (mainTasks.get ⟨2, by decide⟩).task_id = none ∧
          getTaskLocation (initialMapping (mesh 2 2)
            (markFaulty (mesh 2 2) (NoximManagerCore.create (mesh 2 2)) 1 0) mainTasks)
            (mainTasks.get ⟨2, by decide⟩).task_id = -1)) :=
  ⟨(inv_markFaulty (inv_create (mesh 2 2)) 1 0).cores, rfl, by decide,
    initialMapping_greedy (mesh 2 2)
      (markFaulty (mesh 2 2) (NoximManagerCore.create (mesh 2 2)) 1 0) mainTasks
      (inv_markFaulty (inv_create (mesh 2 2)) 1 0).cores rfl (by decide) 2 (by decide)⟩

/-! ## The placement of the spec and the placement of the code -/

theorem specAvailable_iff (v : CoreStatus) (h : v ≠ CORE_SPARE) :
    specAvailable v ↔ v = CORE_HEALTHY := by
  unfold specAvailable
  constructor
  · rintro (e | e)
    · exact e
    · exact absurd e h
  · exact Or.inl

/-- On a registry that holds every mesh core, none of them as `CORE_SPARE`, the
scan of the spec and the scan of the code agree. -/
theorem skipUnavailableSpec_eq (P : GlobalParams) (n : Nat) (cs : List (Int × CoreStatus))
    (core_idx : Int) (h0 : 0 ≤ core_idx)
    (hG : ∀ i, 0 ≤ i → i < totalCores P → ∃ v, mapFind cs i = some v ∧ v ≠ CORE_SPARE) :
    skipUnavailableSpec P n cs core_idx = skipUnavailable P n cs core_idx := by
  induction n generalizing core_idx with
  | zero => rfl
  | succ n ih =>
    by_cases hlt : core_idx < totalCores P
    · obtain ⟨v, hv, hne⟩ := hG core_idx h0 hlt
      simp only [skipUnavailableSpec, skipUnavailable, mapIndex_of_some _ _ _ _ hv]
      by_cases e : v = CORE_HEALTHY
      · subst e
        have ha : specAvailable CORE_HEALTHY := Or.inl rfl
        simp only [ha, not_true_eq_false, ne_eq, false_and, if_false]
      · have ha : ¬ specAvailable v := fun q => e ((specAvailable_iff v hne).1 q)
        simp only [ha, e, not_false_eq_true, ne_eq, hlt, and_self, if_true]
        exact ih _ (by omega)
    · simp only [skipUnavailableSpec, skipUnavailable, hlt, and_false, if_false]

/-- The two properties of the registry are kept by reads and by marking a core
`CORE_BUSY` or `CORE_FAULTY`. -/
theorem noSpare_keep (P : GlobalParams) (cs cs' : List (Int × CoreStatus))
    (hG : ∀ i, 0 ≤ i → i < totalCores P → ∃ v, mapFind cs i = some v ∧ v ≠ CORE_SPARE)
    (hk : ∀ k v, mapFind cs k = some v → mapFind cs' k = some v) :
    ∀ i, 0 ≤ i → i < totalCores P → ∃ v, mapFind cs' i = some v ∧ v ≠ CORE_SPARE := by
  intro i i0 i1
  obtain ⟨v, hv, hne⟩ := hG i i0 i1
  exact ⟨v, hk i v hv, hne⟩

theorem noSpare_set (P : GlobalParams) (cs : List (Int × CoreStatus)) (k : Int)
    (st : CoreStatus) (hst : st ≠ CORE_SPARE)
    (hG : ∀ i, 0 ≤ i → i < totalCores P → ∃ v, mapFind cs i = some v ∧ v ≠ CORE_SPARE) :
    ∀ i, 0 ≤ i → i < totalCores P →
      ∃ v, mapFind (mapSet cs k st) i = some v ∧ v ≠ CORE_SPARE := by
  intro i i0 i1
  rw [mapFind_mapSet]
  split_ifs
  · exact ⟨st, rfl, hst⟩
  · exact hG i i0 i1

theorem mapTasksSpec_eq (P : GlobalParams) (tasks : List Task) (core_idx : Int)
    (tm : List (Int × Int)) (cs : List (Int × CoreStatus)) (h0 : 0 ≤ core_idx)
    (hG : ∀ i, 0 ≤ i → i < totalCores P → ∃ v, mapFind cs i = some v ∧ v ≠ CORE_SPARE) :
    mapTasksSpec P tasks core_idx tm cs = mapTasks P tasks core_idx tm cs := by
  induction tasks generalizing core_idx tm cs with
  | nil => rfl
  | cons task rest ih =>
    simp only [mapTasksSpec, mapTasks, skipUnavailableSpec_eq P _ cs core_idx h0 hG]
    have hle := skipUnavailable_le P (totalCores P - core_idx).toNat cs core_idx
    have hG1 := noSpare_keep P cs
      (skipUnavailable P (totalCores P - core_idx).toNat cs core_idx).2 hG
      (fun k v hv => skipUnavailable_keep _ _ _ _ _ _ hv)
    split_ifs
    · rfl
    · exact ih _ _ _ (by omega) (noSpare_set P _ _ CORE_BUSY (by decide) hG1)
    · exact ih _ _ _ (by omega) hG1

theorem spareLoopSpec_eq (P : GlobalParams) (tm : List (Int × Int)) (task : Task)
    (is : List Int) (best min_energy : Int) (cs : List (Int × CoreStatus))
    (his : ∀ i ∈ is, 0 ≤ i ∧ i < totalCores P)
    (hG : ∀ i, 0 ≤ i → i < totalCores P → ∃ v, mapFind cs i = some v ∧ v ≠ CORE_SPARE) :
    spareLoopSpec P tm task is best min_energy cs = spareLoop P tm task is best min_energy cs := by
  induction is generalizing best min_energy cs with
  | nil => rfl
  | cons i rest ih =>
    obtain ⟨i0, i1⟩ := his i (List.mem_cons_self _ _)
    have hrest : ∀ j ∈ rest, 0 ≤ j ∧ j < totalCores P :=
      fun j hj => his j (List.mem_cons_of_mem _ hj)
    obtain ⟨v, hv, hne⟩ := hG i i0 i1
    have hG1 := noSpare_keep P cs (calculateTaskEnergyOnCore P tm cs task i).2 hG
      (fun k w hw => energyLoop_keep _ _ _ _ _ _ _ _ hw)
    simp only [spareLoopSpec, spareLoop, mapIndex_of_some _ _ _ _ hv]
    by_cases e : v = CORE_HEALTHY
    · subst e
      have ha : specAvailable CORE_HEALTHY := Or.inl rfl
      simp only [ha, if_true]
      split_ifs
      · exact ih _ _ _ hrest hG1
      · exact ih _ _ _ hrest hG1
    · have ha : ¬ specAvailable v := fun q => e ((specAvailable_iff v hne).1 q)
      simp only [ha, e, if_false]
      exact ih _ _ _ hrest hG

theorem findBestSpareCoreSpec_eq (P : GlobalParams) (s : NoximManagerCore) (task_id : Int)
    (hG : ∀ i, 0 ≤ i → i < totalCores P →
      ∃ v, mapFind s.core_status i = some v ∧ v ≠ CORE_SPARE) :
    findBestSpareCoreSpec P s task_id = findBestSpareCore P s task_id := by
  unfold findBestSpareCoreSpec findBestSpareCore
  split
  · rfl
  · exact spareLoopSpec_eq P _ _ _ _ _ _ (fun i hi => (mem_coreIds P i).1 hi) hG

theorem handleFaultSpec_eq (P : GlobalParams) (s : NoximManagerCore) (x y : Int)
    (hG : ∀ i, 0 ≤ i → i < totalCores P →
      ∃ v, mapFind s.core_status i = some v ∧ v ≠ CORE_SPARE) :
    handleFaultSpec P s x y = handleFault P s x y := by
  unfold handleFaultSpec handleFault
  simp only [findBestSpareCoreSpec_eq P s _ hG]

theorem injectFaultSpec_eq (P : GlobalParams) (s : NoximManagerCore) (x y : Int)
    (hG : ∀ i, 0 ≤ i → i < totalCores P →
      ∃ v, mapFind s.core_status i = some v ∧ v ≠ CORE_SPARE) :
    injectFaultSpec P s x y = injectFault P s x y := by
  unfold injectFaultSpec injectFault
  simp only [handleFaultSpec_eq P (markFaulty P s x y) x y
    (noSpare_set P s.core_status _ CORE_FAULTY (by decide) hG)]

/-- In a reachable state every mesh core is registered with a status other than
`CORE_SPARE`. -/
theorem reachable_noSpare {P : GlobalParams} {s : NoximManagerCore} (hs : Reachable P s) :
    ∀ i, 0 ≤ i → i < totalCores P →
      ∃ v, mapFind s.core_status i = some v ∧ v ≠ CORE_SPARE := by
  intro i i0 i1
  rcases reachable_status hs i i0 i1 with r | r | r
  · exact ⟨_, r, by decide⟩
  · exact ⟨_, r, by decide⟩
  · exact ⟨_, r, by decide⟩

/-- C17. At the failing input the closed log is not one well-formed JSON
array: on a 1 x 1 mesh, one `dumpState` call with the title `a"b` on an empty
log, followed by the closing bracket of the driver, leaves exactly the text
below, whatever text the stream writes for the energy.  The title is copied
unescaped, so its line reads `"title": "a"b",`: the string ends at the quote of
the title and the letter `b` follows it. -/
theorem snapshot_title_unescaped (showDouble : Int → String) :
    closeLog (dumpState (mesh 1 1) showDouble (NoximManagerCore.create (mesh 1 1))
        "a\"b" "").2 =
      "[\n  \x7b\n    \"title\": \"a\"b\",\n    \"width\": 1,\n    \"height\": 1,\n" ++
      "    \"total_energy\": " ++ showDouble 0 ++ ",\n" ++
      "    \"cores\": [\n" ++
      ("      \x7b\n        \"id\": 0,\n        \"x\": 0,\n        \"y\": 0,\n" ++
        "        \"status\": \"HEALTHY\",\n        \"task_id\": null\n      \x7d\n") ++
      "    ]\n" ++
      "  \x7d" ++ "\n]" ++ "\n" := by
  rfl

end Noxim
